import Mathlib

/-!
A shallow embedding of the search-engine repository (indexer.py, searcher.py,
tokenizer.py) and proofs about its build pipeline and query evaluator.

External collaborators are abstracted as parameters:
* `nltk.tokenize.word_tokenize` and the Porter stemmer are abstract functions
  `wordTokenize : String → List String` and `stem : String → String`;
* BeautifulSoup's text extraction is abstracted by handing `parseDocument` the
  already-tokenized full text and the already-tokenized weighted-tag
  occurrences (in `find_all` document order);
* the filesystem is modeled by explicit lists: a partial-index file is a list
  of term entries, the final index file is a list of character lines, byte
  offsets are character offsets (all index content is ASCII, one byte per
  character);
* Python floats are modeled by `ℚ` and `math.log10` by an abstract function
  `log10 : ℚ → ℚ`;
* Python `dict` is modeled by an insertion-ordered association list with
  in-place update;
* the spill trigger `sys.getsizeof(self.index) > MAX_INDEX_SIZE` is an
  abstract predicate `spill?` on the accumulator;
* Python `set(...)` iteration order is unspecified; it is modeled by
  first-occurrence deduplication.
-/

namespace SearchEngine

/-- The weighted tag names recognized by `TAG_IMPORTANCE` in `indexer.py`
(`soup.find_all(list(TAG_IMPORTANCE.keys()))` only yields these). -/
inductive Tag where
  | title
  | h1
  | h2
  | h3
  | strong
deriving DecidableEq

/-- `TAG_IMPORTANCE = {"title": 10, "h1": 5, "h2": 4, "h3": 3, "strong": 2}`. -/
def TAG_IMPORTANCE : Tag → Nat
  | .title => 10
  | .h1 => 5
  | .h2 => 4
  | .h3 => 3
  | .strong => 2

/-- `DEFAULT_IMPORTANCE = 1`. -/
def DEFAULT_IMPORTANCE : Nat := 1

/-- A stage-1 posting as built by `Indexer.parseDocument`: the Python dict has
keys `docID` and `tokenFrequency`, and key `tokenImportance` only when some
weighted tag contained the token (`none` models the absent key). -/
structure RawPosting where
  docID : Nat
  tokenFrequency : Nat
  tokenImportance : Option Nat
deriving DecidableEq

/-- A stage-2 posting as written by `Indexer.calculateTF_IDF`: exactly the two
keys `docID` and `tf_idf`. -/
structure WPosting where
  docID : Nat
  tf_idf : ℚ
deriving DecidableEq

/-- `tokenizer.isValidToken`: every character is `a`-`z` or `0`-`9`, and a
token of length ≤ 1 is only valid if it is `"a"` or `"i"`. -/
def isValidToken (token : String) : Bool :=
  if token.toList.all
      (fun c => (97 ≤ c.toNat && c.toNat ≤ 122) || (48 ≤ c.toNat && c.toNat ≤ 57)) then
    if token.length ≤ 1 ∧ token ∉ (["a", "i"] : List String) then false else true
  else false

/-- `tokenizer.tokenize`, with `nltk.tokenize.word_tokenize` and the Porter
stemmer abstracted as `wordTokenize` and `stem`: lowercase and strip the text,
split it into units, keep the valid units, stem the survivors in order. -/
def tokenize (wordTokenize : String → List String) (stem : String → String)
    (text : String) : List String :=
  if text = "" then []
  else ((wordTokenize (text.trim.toLower)).filter (fun t => isValidToken t)).map stem

/-- First-occurrence deduplication, modeling `set(tokenizer.tokenize(query))`
(Python set iteration order is unspecified; this fixes one order). -/
def dedupFirst : List String → List String
  | [] => []
  | t :: ts => t :: dedupFirst (ts.filter (fun s => s ≠ t))
termination_by l => l.length
decreasing_by
  simp only [List.length_cons]
  exact Nat.lt_succ_of_le (List.length_filter_le _ _)

/-- One step of `tokenizer.computeWordFrequencies`: bump the count of `t` in
the insertion-ordered map, creating it at the end when absent. -/
def bump : List (String × Nat) → String → List (String × Nat)
  | [], t => [(t, 1)]
  | (s, n) :: rest, t => if s = t then (s, n + 1) :: rest else (s, n) :: bump rest t

/-- `tokenizer.computeWordFrequencies`: fold the token list through `bump`,
producing the insertion-ordered token → frequency map. -/
def computeWordFrequencies (tokens : List String) : List (String × Nat) :=
  tokens.foldl bump []

/-- `postings[token]["tokenImportance"] = TAG_IMPORTANCE[tagObject.name]`,
guarded by `if token in postings`: update the entry for `tok` in place when
present, otherwise leave the map unchanged. -/
def setImportance (m : List (String × RawPosting)) (tok : String) (w : Nat) :
    List (String × RawPosting) :=
  m.map (fun e => if e.1 = tok then (e.1, { e.2 with tokenImportance := some w }) else e)

/-- The inner loop of `parseDocument` for one weighted-tag occurrence:
`for token in tokenizer.tokenize(str(tagObject.string)): ...`. -/
def applyTag (m : List (String × RawPosting)) (tg : Tag × List String) :
    List (String × RawPosting) :=
  tg.2.foldl (fun m tok => setImportance m tok (TAG_IMPORTANCE tg.1)) m

/-- The extracted content of one document: the tokenization of
`soup.get_text()`, and for each weighted-tag occurrence (in `find_all` order)
the tokenization of its text. -/
structure DocContent where
  textTokens : List String
  tags : List (Tag × List String)

/-- `Indexer.parseDocument`: build a posting `{docID, tokenFrequency}` for each
distinct token of the full text, then for each weighted-tag occurrence set
`tokenImportance` of every posting whose token occurs in the tag's text. -/
def parseDocument (content : DocContent) (docID : Nat) : List (String × RawPosting) :=
  let postings := (computeWordFrequencies content.textTokens).map
    (fun e => (e.1, RawPosting.mk docID e.2 none))
  content.tags.foldl applyTag postings

/-- `self.index[token].append(posting)` / `self.index[token] = [posting]`:
append the posting to the token's list, creating the entry (at insertion
order position, i.e. at the end) when the token is new. -/
def indexInsert (index : List (String × List RawPosting)) (tok : String)
    (p : RawPosting) : List (String × List RawPosting) :=
  if (index.find? (fun e => e.1 = tok)).isSome then
    index.map (fun e => if e.1 = tok then (e.1, e.2 ++ [p]) else e)
  else index ++ [(tok, [p])]

/-- `Indexer.writePartialIndexToDisk`: emit the accumulator as a partial-index
file, one term entry per line, tokens in sorted order
(`for token in sorted(self.index)`). -/
def writePartialIndexToDisk (index : List (String × List RawPosting)) :
    List (String × List RawPosting) :=
  List.insertionSort (fun a b => a.1 ≤ b.1) index

/-- The in-memory state of `Indexer.createPartialIndexes`: the accumulator,
the partial-index files spilled so far (in creation order), the docID → URL
table, and the two counters. -/
structure BuildState where
  index : List (String × List RawPosting)
  files : List (List (String × List RawPosting))
  docIDtoURL : List String
  numberOfDocsIndexed : Nat
  currDocID : Nat

/-- The state at the top of `Indexer.createPartialIndexes`. -/
def initialState : BuildState :=
  { index := [], files := [], docIDtoURL := [], numberOfDocsIndexed := 0, currDocID := 0 }

/-- A corpus document as seen by `createPartialIndexes`: `none` models a file
whose JSON fails to parse; `some (url, html)` carries the `url` and `content`
fields (absent fields default to `""`, exactly as `jsonData.get(..., "")`). -/
def RawDoc : Type := Option (String × String)

/-- One iteration of the `for document in self.iterCorpus()` loop in
`Indexer.createPartialIndexes`. A malformed document or one with an empty
`url`/`content` is skipped entirely (the `continue` also skips the spill check
and the `currDocID += 1`). Otherwise: append the URL, merge the document's
postings into the accumulator, bump `numberOfDocsIndexed`, spill when `spill?`
fires, and bump `currDocID`. -/
def processDoc (extract : String → DocContent)
    (spill? : List (String × List RawPosting) → Bool)
    (st : BuildState) (doc : RawDoc) : BuildState :=
  match doc with
  | none => st
  | some (url, html) =>
    if url = "" ∨ html = "" then st
    else
      let postings := parseDocument (extract html) st.currDocID
      let index1 := postings.foldl (fun ix e => indexInsert ix e.1 e.2) st.index
      let st1 : BuildState :=
        { index := index1
          files := st.files
          docIDtoURL := st.docIDtoURL ++ [url]
          numberOfDocsIndexed := st.numberOfDocsIndexed + 1
          currDocID := st.currDocID }
      let st2 : BuildState :=
        if spill? st1.index then
          { st1 with files := st1.files ++ [writePartialIndexToDisk st1.index], index := [] }
        else st1
      { st2 with currDocID := st2.currDocID + 1 }

/-- `Indexer.createPartialIndexes`: fold the corpus through `processDoc`, then
perform the unconditional final spill (`self.writePartialIndexToDisk()` after
the loop). -/
def createPartialIndexes (extract : String → DocContent)
    (spill? : List (String × List RawPosting) → Bool)
    (docs : List RawDoc) : BuildState :=
  let st := docs.foldl (processDoc extract spill?) initialState
  { st with files := st.files ++ [writePartialIndexToDisk st.index], index := [] }

/-- `Indexer._mergePartialIndexesToDisk`: the streaming 2-way merge of two
term-sorted partial-index files. On equal tokens the posting lists are
concatenated (first file first); otherwise the smaller-token line is emitted;
at EOF of one file the other is drained. Generic in the posting type since
the merge treats posting lists as opaque JSON arrays. -/
def mergePartialIndexes {β : Type} :
    List (String × List β) → List (String × List β) → List (String × List β)
  | [], bs => bs
  | a :: as, [] => a :: as
  | a :: as, b :: bs =>
    if a.1 = b.1 then (a.1, a.2 ++ b.2) :: mergePartialIndexes as bs
    else if a.1 < b.1 then a :: mergePartialIndexes as (b :: bs)
    else b :: mergePartialIndexes (a :: as) bs
termination_by as bs => (as.length, bs.length)

/-- `Indexer.calculateTF_IDF`, with `math.log10` abstracted as `log10` and
floats as `ℚ`: for each line, `docFrequency` is the posting-list length; each
posting `{docID, tokenFrequency, tokenImportance?}` is rewritten to
`{docID, tf_idf}` with `tf_idf = weight * (1 + log10 tf) * log10 (N / df)`,
where `weight` is `tokenImportance` popped with default `DEFAULT_IMPORTANCE`
and `tokenFrequency` is deleted. -/
def calculateTF_IDF (log10 : ℚ → ℚ) (numberOfDocsIndexed : Nat)
    (index : List (String × List RawPosting)) : List (String × List WPosting) :=
  index.map (fun line =>
    let docFrequency := line.2.length
    (line.1, line.2.map (fun posting =>
      let weight := posting.tokenImportance.getD DEFAULT_IMPORTANCE
      let log_tf := 1 + log10 (posting.tokenFrequency : ℚ)
      let idf := log10 ((numberOfDocsIndexed : ℚ) / (docFrequency : ℚ))
      WPosting.mk posting.docID ((weight : ℚ) * log_tf * idf))))

/-- The bytes of a line-delimited index file: each line followed by `"\n"`.
Offsets are in characters; all index content is ASCII so this coincides with
`f.tell()` byte offsets. -/
def fileOfLines : List (List Char) → List Char
  | [] => []
  | l :: ls => l ++ '\n' :: fileOfLines ls

/-- `f.seek(offset)` followed by `f.readline().strip("\n")`: the characters
from `offset` up to the next newline. -/
def readLineAt (file : List Char) (offset : Nat) : List Char :=
  (file.drop offset).takeWhile (fun c => c ≠ '\n')

/-- Python-dict assignment `m[k] = v`: update in place when the key is
present, append otherwise (insertion order). -/
def dictInsert (m : List (String × Nat)) (k : String) (v : Nat) : List (String × Nat) :=
  if (m.find? (fun e => e.1 = k)).isSome then
    m.map (fun e => if e.1 = k then (e.1, v) else e)
  else m ++ [(k, v)]

/-- Python-dict lookup `m.get(k)`. -/
def dictGet? (m : List (String × Nat)) (k : String) : Option Nat :=
  (m.find? (fun e => e.1 = k)).map Prod.snd

/-- Python-dict lookup in a token → posting map (`postings[token]`). -/
def postOf (m : List (String × RawPosting)) (k : String) : Option RawPosting :=
  (m.find? (fun e => e.1 = k)).map Prod.snd

/-- `Indexer.createIndexofIndex`, with the JSON parse of a line abstracted as
`parseTerm`: walk the final index file recording, before reading each line,
its starting offset (`indexFile.tell()`), and store
`indexOfIndex[token] = seekPosition`. -/
def createIndexofIndex (parseTerm : List Char → String) :
    Nat → List (List Char) → List (String × Nat) → List (String × Nat)
  | _, [], m => m
  | seekPosition, line :: rest, m =>
    createIndexofIndex parseTerm (seekPosition + line.length + 1) rest
      (dictInsert m (parseTerm line) seekPosition)

/-- `Searcher.readPostingList`, with `json.loads(line)[token]` abstracted as
`parseLine`: look the token up in the offset map (`self.indexOfIndex.get(token, -1)`,
the `-1` sentinel modeled by `none`), return `[]` when absent, otherwise seek
to the stored offset, read one line and parse the posting list out of it. -/
def readPostingList (indexOfIndex : List (String × Nat)) (file : List Char)
    (parseLine : List Char → String → List WPosting) (token : String) : List WPosting :=
  match dictGet? indexOfIndex token with
  | none => []
  | some seekPosition => parseLine (readLineAt file seekPosition) token

/-- `Searcher._intersect`: the two-pointer intersection of two posting lists,
summing `tf_idf` on equal docIDs. -/
def _intersect : List WPosting → List WPosting → List WPosting
  | [], _ => []
  | _ :: _, [] => []
  | a :: as, b :: bs =>
    if a.docID = b.docID then
      WPosting.mk a.docID (a.tf_idf + b.tf_idf) :: _intersect as bs
    else if a.docID < b.docID then _intersect as (b :: bs)
    else _intersect (a :: as) bs
termination_by as bs => (as.length, bs.length)

/-- `Searcher._merge`: the two-pointer sorted-merge union of two posting
lists, summing `tf_idf` on equal docIDs and carrying other postings through
(including the drain loops at the end). -/
def _merge : List WPosting → List WPosting → List WPosting
  | [], bs => bs
  | a :: as, [] => a :: as
  | a :: as, b :: bs =>
    if a.docID = b.docID then
      WPosting.mk a.docID (a.tf_idf + b.tf_idf) :: _merge as bs
    else if a.docID < b.docID then a :: _merge as (b :: bs)
    else b :: _merge (a :: as) bs
termination_by as bs => (as.length, bs.length)

/-- `queryPostingsLists.sort(key=len)`: stable sort by ascending length.
The Python `list.sort` is in place, so `Searcher.searchQuery` observes the
sorted list after calling `getPostingsListsIntersection`. -/
def sortByLen (ls : List (List WPosting)) : List (List WPosting) :=
  List.insertionSort (fun a b => a.length ≤ b.length) ls

/-- `documents.sort(key=lambda x: x["tf_idf"], reverse=True)`: stable sort by
descending `tf_idf`. -/
def sortDesc (ps : List WPosting) : List WPosting :=
  List.insertionSort (fun a b => b.tf_idf ≤ a.tf_idf) ps

/-- The fold `res = queryPostingsLists[0]; for i in 1..: res = _intersect(res, ...)`. -/
def intersectFold : List (List WPosting) → List WPosting
  | [] => []
  | h :: t => t.foldl _intersect h

/-- `Searcher.getPostingsListsIntersection`: return `[]` for no lists,
otherwise sort the lists by ascending length (in place) and intersect
left-to-right. -/
def getPostingsListsIntersection (ls : List (List WPosting)) : List WPosting :=
  intersectFold (sortByLen ls)

/-- `Searcher.mergePostingLists`: return `[]` for no lists, otherwise union
the lists left-to-right with `_merge`. -/
def mergePostingLists : List (List WPosting) → List WPosting
  | [] => []
  | h :: t => t.foldl _merge h

/-- `Searcher.searchQuery`, with the posting-list fetch abstracted as `read`:
deduplicate the query tokens, fetch the posting lists, intersect (which sorts
the list of lists by length in place); on an empty intersection fall back to
the sorted-merge union of the (by now length-sorted) lists; sort by `tf_idf`
descending and map the first `maxResults` docIDs to URLs. -/
def searchQuery (wordTokenize : String → List String) (stem : String → String)
    (read : String → List WPosting) (docIDtoURL : List String)
    (maxResults : Nat) (query : String) : List String :=
  let queryTerms := dedupFirst (tokenize wordTokenize stem query)
  let queryPostingsLists := sortByLen (queryTerms.map read)
  let documents := intersectFold queryPostingsLists
  let documents :=
    if documents = [] then mergePostingLists queryPostingsLists else documents
  ((sortDesc documents).take maxResults).map (fun p => docIDtoURL.getD p.docID "")

/-! ### Specification-side definitions

These definitions are written from the spec's words, to be compared with the
code-side definitions above. -/

/-- Strictly ascending docIDs — the spec's posting-list invariant. -/
def PostingsSortedW (ps : List WPosting) : Prop :=
  ps.Pairwise (fun p q => p.docID < q.docID)

/-- Strictly ascending docIDs for stage-1 postings. -/
def PostingsSortedR (ps : List RawPosting) : Prop :=
  ps.Pairwise (fun p q => p.docID < q.docID)

/-- Strictly ascending terms — the spec's term-ordering invariant for
partial-index files and the final index. -/
def TermsSorted {β : Type} (f : List (String × β)) : Prop :=
  f.Pairwise (fun x y => x.1 < y.1)

/-- Spec-side pairwise intersection: keep exactly the postings of the first
list whose docID also occurs in the second list, summing the two `tf_idf`
values. -/
def intersectSpec (p1 p2 : List WPosting) : List WPosting :=
  p1.filterMap (fun a =>
    (p2.find? (fun b => b.docID = a.docID)).map
      (fun b => WPosting.mk a.docID (a.tf_idf + b.tf_idf)))

/-- Sorted union of two docID sequences. -/
def mergeKeys : List Nat → List Nat → List Nat
  | [], es => es
  | d :: ds, [] => d :: ds
  | d :: ds, e :: es =>
    if d = e then d :: mergeKeys ds es
    else if d < e then d :: mergeKeys ds (e :: es)
    else e :: mergeKeys (d :: ds) es
termination_by ds es => (ds.length, es.length)

/-- The total `tf_idf` contribution of a posting list to a docID. -/
def tfSum (ps : List WPosting) (d : Nat) : ℚ :=
  ((ps.filter (fun p => p.docID = d)).map (fun p => p.tf_idf)).sum

/-- Spec-side pairwise union: one posting per docID of the union of the two
docID sequences, in ascending order, whose `tf_idf` sums the contributions of
both lists (collisions sum, other postings carry through). -/
def unionSpec (p1 p2 : List WPosting) : List WPosting :=
  (mergeKeys (p1.map (fun p => p.docID)) (p2.map (fun p => p.docID))).map
    (fun d => WPosting.mk d (tfSum p1 d + tfSum p2 d))

/-- Spec-side fold of the pairwise intersection over the length-sorted lists. -/
def intersectFoldSpec : List (List WPosting) → List WPosting
  | [] => []
  | h :: t => t.foldl intersectSpec h

/-- Spec-side fold of the pairwise union. -/
def mergeFoldSpec : List (List WPosting) → List WPosting
  | [] => []
  | h :: t => t.foldl unionSpec h

/-- The query evaluator as described by the spec: deduplicate the tokenized
query, fetch each distinct term's posting list, sort the per-term lists by
ascending length, compute AND-candidates by the left-to-right spec-side
intersection; exactly when that is empty compute OR-candidates by the
left-to-right spec-side union; rank by descending `tf_idf` and map the first
`maxResults` docIDs to URLs. -/
def searchQuerySpec (wordTokenize : String → List String) (stem : String → String)
    (read : String → List WPosting) (docIDtoURL : List String)
    (maxResults : Nat) (query : String) : List String :=
  let queryTerms := dedupFirst (tokenize wordTokenize stem query)
  let lists := sortByLen (queryTerms.map read)
  let andCandidates := intersectFoldSpec lists
  let candidates :=
    if andCandidates = [] then mergeFoldSpec lists else andCandidates
  ((sortDesc candidates).take maxResults).map (fun p => docIDtoURL.getD p.docID "")

/-- The spec's TF-IDF formula for one posting:
`tf_idf = i * (1 + log10 tf) * log10 (N / df)` with `i` defaulting to
`DEFAULT_IMPORTANCE` when no tag weight was recorded. -/
def tfidfPosting (log10 : ℚ → ℚ) (N df : Nat) (p : RawPosting) : WPosting :=
  WPosting.mk p.docID
    ((p.tokenImportance.getD DEFAULT_IMPORTANCE : ℚ)
      * (1 + log10 (p.tokenFrequency : ℚ)) * log10 ((N : ℚ) / (df : ℚ)))

/-- The tag weight the spec assigns to a term: the configured weight of the
last weighted-tag occurrence whose tokenization contains the term, and
`DEFAULT_IMPORTANCE` when no weighted tag contains it. -/
def lastTagWeight (tags : List (Tag × List String)) (t : String) : Nat :=
  match (tags.filter (fun tg => t ∈ tg.2)).getLast? with
  | some tg => TAG_IMPORTANCE tg.1
  | none => DEFAULT_IMPORTANCE

/-- Whether a corpus document is successfully ingested: its JSON parses and
both `url` and `content` are nonempty. -/
def validDoc : RawDoc → Bool
  | none => false
  | some (url, html) => !(url = "" || html = "")

/-- The URLs of the successfully ingested documents, in corpus order. -/
def corpusURLs (docs : List RawDoc) : List String :=
  docs.filterMap (fun d =>
    match d with
    | none => none
    | some (url, html) => if url = "" ∨ html = "" then none else some url)

/-- All docIDs occurring in a partial-index file. -/
def fileDocIDs (f : List (String × List RawPosting)) : List Nat :=
  f.flatMap (fun e => e.2.map (fun p => p.docID))

instance : IsTotal (String × List RawPosting) (fun a b => a.1 ≤ b.1) :=
  ⟨fun a b => le_total a.1 b.1⟩

instance : IsTrans (String × List RawPosting) (fun a b => a.1 ≤ b.1) :=
  ⟨fun _ _ _ h1 h2 => le_trans h1 h2⟩

/-- The loop invariant of `Indexer.createPartialIndexes`: the accumulator has
no duplicate tokens and docID-sorted posting lists of docIDs below the current
docID; every spilled file is term-sorted with docID-sorted posting lists below
the current docID; files cover pairwise-increasing docID ranges in creation
order, and every accumulator docID is above every spilled docID. -/
def BuildInv (st : BuildState) : Prop :=
  (st.index.map Prod.fst).Nodup
  ∧ (∀ e ∈ st.index, PostingsSortedR e.2)
  ∧ (∀ e ∈ st.index, ∀ p ∈ e.2, p.docID < st.currDocID)
  ∧ (∀ f ∈ st.files, TermsSorted f)
  ∧ (∀ f ∈ st.files, ∀ e ∈ f, PostingsSortedR e.2)
  ∧ (∀ f ∈ st.files, ∀ e ∈ f, ∀ p ∈ e.2, p.docID < st.currDocID)
  ∧ st.files.Pairwise (fun f g => ∀ p ∈ fileDocIDs f, ∀ q ∈ fileDocIDs g, p < q)
  ∧ (∀ f ∈ st.files, ∀ p ∈ fileDocIDs f, ∀ e ∈ st.index, ∀ q ∈ e.2, p < q.docID)

/-! ### Lemmas about the 2-way merge `Indexer._mergePartialIndexesToDisk` -/

theorem mergePartialIndexes_nil {β : Type} (bs : List (String × List β)) :
    mergePartialIndexes [] bs = bs := by
  simp [mergePartialIndexes]

theorem mergePartialIndexes_nil_right {β : Type} (as : List (String × List β)) :
    mergePartialIndexes as [] = as := by
  cases as <;> simp [mergePartialIndexes]

theorem mergePartialIndexes_cons_eq {β : Type} (a b : String × List β)
    (as bs : List (String × List β)) (h : a.1 = b.1) :
    mergePartialIndexes (a :: as) (b :: bs)
      = (a.1, a.2 ++ b.2) :: mergePartialIndexes as bs := by
  simp [mergePartialIndexes, h]

theorem mergePartialIndexes_cons_lt {β : Type} (a b : String × List β)
    (as bs : List (String × List β)) (h : a.1 < b.1) :
    mergePartialIndexes (a :: as) (b :: bs) = a :: mergePartialIndexes as (b :: bs) := by
  simp [mergePartialIndexes, ne_of_lt h, h]

theorem mergePartialIndexes_cons_gt {β : Type} (a b : String × List β)
    (as bs : List (String × List β)) (h : b.1 < a.1) :
    mergePartialIndexes (a :: as) (b :: bs) = b :: mergePartialIndexes (a :: as) bs := by
  simp [mergePartialIndexes, ne_of_gt h, not_lt_of_gt h]


theorem mergePartialIndexes_keys {β : Type} {A B : List (String × List β)} :
    ∀ x ∈ mergePartialIndexes A B, x.1 ∈ A.map Prod.fst ∨ x.1 ∈ B.map Prod.fst := by
  induction A, B using mergePartialIndexes.induct with
  | case1 bs =>
    intro x hx
    rw [mergePartialIndexes_nil] at hx
    exact Or.inr (List.mem_map_of_mem _ hx)
  | case2 a as =>
    intro x hx
    rw [mergePartialIndexes_nil_right] at hx
    exact Or.inl (List.mem_map_of_mem _ hx)
  | case3 a as b bs h ih =>
    intro x hx
    rw [mergePartialIndexes_cons_eq _ _ _ _ h] at hx
    rcases List.mem_cons.mp hx with hx | hx
    · exact Or.inl (by simp [hx])
    · rcases ih x hx with h' | h'
      · exact Or.inl (by simp only [List.map_cons, List.mem_cons]; exact Or.inr h')
      · exact Or.inr (by simp only [List.map_cons, List.mem_cons]; exact Or.inr h')
  | case4 a as b bs hne hlt ih =>
    intro x hx
    rw [mergePartialIndexes_cons_lt _ _ _ _ hlt] at hx
    rcases List.mem_cons.mp hx with hx | hx
    · exact Or.inl (by simp [hx])
    · rcases ih x hx with h' | h'
      · exact Or.inl (by simp only [List.map_cons, List.mem_cons]; exact Or.inr h')
      · exact Or.inr h'
  | case5 a as b bs hne hnlt ih =>
    intro x hx
    have hgt : b.1 < a.1 := lt_of_le_of_ne (not_lt.mp hnlt) (fun hc => hne hc.symm)
    rw [mergePartialIndexes_cons_gt _ _ _ _ hgt] at hx
    rcases List.mem_cons.mp hx with hx | hx
    · exact Or.inr (by simp [hx])
    · rcases ih x hx with h' | h'
      · exact Or.inl h'
      · exact Or.inr (by simp only [List.map_cons, List.mem_cons]; exact Or.inr h')

theorem TermsSorted_mergePartialIndexes {β : Type} {A B : List (String × List β)}
    (hA : TermsSorted A) (hB : TermsSorted B) :
    TermsSorted (mergePartialIndexes A B) := by
  induction A, B using mergePartialIndexes.induct with
  | case1 bs => rwa [mergePartialIndexes_nil]
  | case2 a as => rwa [mergePartialIndexes_nil_right]
  | case3 a as b bs h ih =>
    rw [mergePartialIndexes_cons_eq _ _ _ _ h]
    rw [TermsSorted, List.pairwise_cons] at hA hB ⊢
    refine ⟨?_, ih hA.2 hB.2⟩
    intro y hy
    rcases mergePartialIndexes_keys y hy with h' | h'
    · rcases List.mem_map.mp h' with ⟨e, he, hk⟩
      exact hk ▸ hA.1 e he
    · rcases List.mem_map.mp h' with ⟨e, he, hk⟩
      exact hk ▸ h ▸ hB.1 e he
  | case4 a as b bs hne hlt ih =>
    rw [mergePartialIndexes_cons_lt _ _ _ _ hlt]
    rw [TermsSorted, List.pairwise_cons] at hA ⊢
    refine ⟨?_, ih hA.2 hB⟩
    intro y hy
    rcases mergePartialIndexes_keys y hy with h' | h'
    · rcases List.mem_map.mp h' with ⟨e, he, hk⟩
      exact hk ▸ hA.1 e he
    · rcases List.mem_map.mp h' with ⟨e, he, hk⟩
      rcases List.mem_cons.mp he with he | he
      · rw [← hk, he]; exact hlt
      · rw [TermsSorted, List.pairwise_cons] at hB
        exact hk ▸ lt_trans hlt (hB.1 e he)
  | case5 a as b bs hne hnlt ih =>
    have hgt : b.1 < a.1 := lt_of_le_of_ne (not_lt.mp hnlt) (fun hc => hne hc.symm)
    rw [mergePartialIndexes_cons_gt _ _ _ _ hgt]
    rw [TermsSorted, List.pairwise_cons] at hB ⊢
    refine ⟨?_, ih hA hB.2⟩
    intro y hy
    rcases mergePartialIndexes_keys y hy with h' | h'
    · rcases List.mem_map.mp h' with ⟨e, he, hk⟩
      rcases List.mem_cons.mp he with he | he
      · rw [← hk, he]; exact hgt
      · rw [TermsSorted, List.pairwise_cons] at hA
        exact hk ▸ lt_trans hgt (hA.1 e he)
    · rcases List.mem_map.mp h' with ⟨e, he, hk⟩
      exact hk ▸ hB.1 e he

theorem mem_fileDocIDs {f : List (String × List RawPosting)}
    {e : String × List RawPosting} (he : e ∈ f) {p : RawPosting} (hp : p ∈ e.2) :
    p.docID ∈ fileDocIDs f := by
  simp only [fileDocIDs, List.mem_flatMap]
  exact ⟨e, he, List.mem_map_of_mem _ hp⟩

theorem fileDocIDs_cons_subset {e : String × List RawPosting}
    {f : List (String × List RawPosting)} :
    ∀ d ∈ fileDocIDs f, d ∈ fileDocIDs (e :: f) := by
  intro d hd
  simp only [fileDocIDs, List.mem_flatMap] at hd ⊢
  rcases hd with ⟨x, hx, hd⟩
  exact ⟨x, List.mem_cons_of_mem _ hx, hd⟩

theorem postingsSorted_mergePartialIndexes
    {A B : List (String × List RawPosting)}
    (hA : ∀ e ∈ A, PostingsSortedR e.2) (hB : ∀ e ∈ B, PostingsSortedR e.2)
    (hAB : ∀ p ∈ fileDocIDs A, ∀ q ∈ fileDocIDs B, p < q) :
    ∀ e ∈ mergePartialIndexes A B, PostingsSortedR e.2 := by
  induction A, B using mergePartialIndexes.induct with
  | case1 bs =>
    rw [mergePartialIndexes_nil]; exact hB
  | case2 a as =>
    rw [mergePartialIndexes_nil_right]; exact hA
  | case3 a as b bs h ih =>
    rw [mergePartialIndexes_cons_eq _ _ _ _ h]
    intro e he
    rcases List.mem_cons.mp he with he | he
    · subst he
      rw [PostingsSortedR, List.pairwise_append]
      refine ⟨hA _ (List.mem_cons_self _ _), hB _ (List.mem_cons_self _ _), ?_⟩
      intro p hp q hq
      exact hAB _ (mem_fileDocIDs (List.mem_cons_self _ _) hp) _
        (mem_fileDocIDs (List.mem_cons_self _ _) hq)
    · refine ih (fun x hx => hA x (List.mem_cons_of_mem _ hx))
        (fun x hx => hB x (List.mem_cons_of_mem _ hx)) ?_ e he
      intro p hp q hq
      exact hAB _ (fileDocIDs_cons_subset _ hp) _ (fileDocIDs_cons_subset _ hq)
  | case4 a as b bs hne hlt ih =>
    rw [mergePartialIndexes_cons_lt _ _ _ _ hlt]
    intro e he
    rcases List.mem_cons.mp he with he | he
    · subst he; exact hA _ (List.mem_cons_self _ _)
    · refine ih (fun x hx => hA x (List.mem_cons_of_mem _ hx)) hB ?_ e he
      intro p hp q hq
      exact hAB _ (fileDocIDs_cons_subset _ hp) _ hq
  | case5 a as b bs hne hnlt ih =>
    have hgt : b.1 < a.1 := lt_of_le_of_ne (not_lt.mp hnlt) (fun hc => hne hc.symm)
    rw [mergePartialIndexes_cons_gt _ _ _ _ hgt]
    intro e he
    rcases List.mem_cons.mp he with he | he
    · subst he; exact hB _ (List.mem_cons_self _ _)
    · refine ih hA (fun x hx => hB x (List.mem_cons_of_mem _ hx)) ?_ e he
      intro p hp q hq
      exact hAB _ hp _ (fileDocIDs_cons_subset _ hq)

theorem mergePartialIndexes_assoc_aux {β : Type} :
    ∀ n : Nat, ∀ A B C : List (String × List β),
      A.length + B.length + C.length ≤ n →
      mergePartialIndexes (mergePartialIndexes A B) C
        = mergePartialIndexes A (mergePartialIndexes B C) := by
  intro n
  induction n with
  | zero =>
    intro A B C h
    have hA : A = [] := List.length_eq_zero.mp (by omega)
    subst hA
    simp [mergePartialIndexes_nil]
  | succ n ih =>
    intro A B C h
    rcases A with _ | ⟨a, as⟩
    · simp [mergePartialIndexes_nil]
    rcases B with _ | ⟨b, bs⟩
    · simp [mergePartialIndexes_nil, mergePartialIndexes_nil_right]
    rcases C with _ | ⟨c, cs⟩
    · simp [mergePartialIndexes_nil_right]
    simp only [List.length_cons] at h
    rcases lt_trichotomy a.1 b.1 with hab | hab | hab
    · rcases lt_trichotomy b.1 c.1 with hbc | hbc | hbc
      · -- a < b < c
        have hac : a.1 < c.1 := lt_trans hab hbc
        rw [mergePartialIndexes_cons_lt a b as bs hab,
          mergePartialIndexes_cons_lt b c bs cs hbc,
          mergePartialIndexes_cons_lt a c (mergePartialIndexes as (b :: bs)) cs hac,
          mergePartialIndexes_cons_lt a b as (mergePartialIndexes bs (c :: cs)) hab,
          ← mergePartialIndexes_cons_lt b c bs cs hbc,
          ih as (b :: bs) (c :: cs) (by simp only [List.length_cons]; omega)]
      · -- a < b = c
        have hac : a.1 < c.1 := hbc ▸ hab
        rw [mergePartialIndexes_cons_lt a b as bs hab,
          mergePartialIndexes_cons_eq b c bs cs hbc,
          mergePartialIndexes_cons_lt a c (mergePartialIndexes as (b :: bs)) cs hac,
          mergePartialIndexes_cons_lt a (b.1, b.2 ++ c.2) as (mergePartialIndexes bs cs) hab,
          ← mergePartialIndexes_cons_eq b c bs cs hbc,
          ih as (b :: bs) (c :: cs) (by simp only [List.length_cons]; omega)]
      · -- a < b, c < b
        rcases lt_trichotomy a.1 c.1 with hac | hac | hac
        · rw [mergePartialIndexes_cons_lt a b as bs hab,
            mergePartialIndexes_cons_gt b c bs cs hbc,
            mergePartialIndexes_cons_lt a c (mergePartialIndexes as (b :: bs)) cs hac,
            mergePartialIndexes_cons_lt a c as (mergePartialIndexes (b :: bs) cs) hac,
            ← mergePartialIndexes_cons_gt b c bs cs hbc,
            ih as (b :: bs) (c :: cs) (by simp only [List.length_cons]; omega)]
        · rw [mergePartialIndexes_cons_lt a b as bs hab,
            mergePartialIndexes_cons_gt b c bs cs hbc,
            mergePartialIndexes_cons_eq a c (mergePartialIndexes as (b :: bs)) cs hac,
            mergePartialIndexes_cons_eq a c as (mergePartialIndexes (b :: bs) cs) hac,
            ih as (b :: bs) cs (by simp only [List.length_cons]; omega)]
        · rw [mergePartialIndexes_cons_lt a b as bs hab,
            mergePartialIndexes_cons_gt b c bs cs hbc,
            mergePartialIndexes_cons_gt a c (mergePartialIndexes as (b :: bs)) cs hac,
            mergePartialIndexes_cons_gt a c as (mergePartialIndexes (b :: bs) cs) hac,
            ← mergePartialIndexes_cons_lt a b as bs hab,
            ih (a :: as) (b :: bs) cs (by simp only [List.length_cons]; omega)]
    · rcases lt_trichotomy b.1 c.1 with hbc | hbc | hbc
      · -- a = b < c
        have hac : a.1 < c.1 := hab.trans_lt hbc
        rw [mergePartialIndexes_cons_eq a b as bs hab,
          mergePartialIndexes_cons_lt b c bs cs hbc,
          mergePartialIndexes_cons_lt (a.1, a.2 ++ b.2) c (mergePartialIndexes as bs) cs hac,
          mergePartialIndexes_cons_eq a b as (mergePartialIndexes bs (c :: cs)) hab,
          ih as bs (c :: cs) (by simp only [List.length_cons]; omega)]
      · -- a = b = c
        have hac : a.1 = c.1 := hab.trans hbc
        rw [mergePartialIndexes_cons_eq a b as bs hab,
          mergePartialIndexes_cons_eq b c bs cs hbc,
          mergePartialIndexes_cons_eq (a.1, a.2 ++ b.2) c (mergePartialIndexes as bs) cs hac,
          mergePartialIndexes_cons_eq a (b.1, b.2 ++ c.2) as (mergePartialIndexes bs cs) hab,
          ih as bs cs (by omega), List.append_assoc]
      · -- a = b, c < b
        have hac : c.1 < a.1 := hbc.trans_eq hab.symm
        rw [mergePartialIndexes_cons_eq a b as bs hab,
          mergePartialIndexes_cons_gt b c bs cs hbc,
          mergePartialIndexes_cons_gt (a.1, a.2 ++ b.2) c (mergePartialIndexes as bs) cs hac,
          mergePartialIndexes_cons_gt a c as (mergePartialIndexes (b :: bs) cs) hac,
          ← mergePartialIndexes_cons_eq a b as bs hab,
          ih (a :: as) (b :: bs) cs (by simp only [List.length_cons]; omega)]
    · rcases lt_trichotomy b.1 c.1 with hbc | hbc | hbc
      · -- b < a, b < c
        rw [mergePartialIndexes_cons_gt a b as bs hab,
          mergePartialIndexes_cons_lt b c bs cs hbc,
          mergePartialIndexes_cons_lt b c (mergePartialIndexes (a :: as) bs) cs hbc,
          mergePartialIndexes_cons_gt a b as (mergePartialIndexes bs (c :: cs)) hab,
          ih (a :: as) bs (c :: cs) (by simp only [List.length_cons]; omega)]
      · -- b < a, b = c
        rw [mergePartialIndexes_cons_gt a b as bs hab,
          mergePartialIndexes_cons_eq b c bs cs hbc,
          mergePartialIndexes_cons_eq b c (mergePartialIndexes (a :: as) bs) cs hbc,
          mergePartialIndexes_cons_gt a (b.1, b.2 ++ c.2) as (mergePartialIndexes bs cs) hab,
          ih (a :: as) bs cs (by simp only [List.length_cons]; omega)]
      · -- c < b < a
        have hac : c.1 < a.1 := lt_trans hbc hab
        rw [mergePartialIndexes_cons_gt a b as bs hab,
          mergePartialIndexes_cons_gt b c bs cs hbc,
          mergePartialIndexes_cons_gt b c (mergePartialIndexes (a :: as) bs) cs hbc,
          mergePartialIndexes_cons_gt a c as (mergePartialIndexes (b :: bs) cs) hac,
          ← mergePartialIndexes_cons_gt a b as bs hab,
          ih (a :: as) (b :: bs) cs (by simp only [List.length_cons]; omega)]

theorem mergePartialIndexes_assoc {β : Type} (A B C : List (String × List β)) :
    mergePartialIndexes (mergePartialIndexes A B) C
      = mergePartialIndexes A (mergePartialIndexes B C) :=
  mergePartialIndexes_assoc_aux (A.length + B.length + C.length) A B C le_rfl

/-! ### Lemmas about `Searcher._intersect` -/

theorem _intersect_nil (bs : List WPosting) : _intersect [] bs = [] := by
  simp [_intersect]

theorem _intersect_nil_right (as : List WPosting) : _intersect as [] = [] := by
  cases as <;> simp [_intersect]

theorem _intersect_cons_eq (a b : WPosting) (as bs : List WPosting)
    (h : a.docID = b.docID) :
    _intersect (a :: as) (b :: bs)
      = WPosting.mk a.docID (a.tf_idf + b.tf_idf) :: _intersect as bs := by
  simp [_intersect, h]

theorem _intersect_cons_lt (a b : WPosting) (as bs : List WPosting)
    (h : a.docID < b.docID) :
    _intersect (a :: as) (b :: bs) = _intersect as (b :: bs) := by
  simp [_intersect, Nat.ne_of_lt h, h]

theorem _intersect_cons_gt (a b : WPosting) (as bs : List WPosting)
    (h : b.docID < a.docID) :
    _intersect (a :: as) (b :: bs) = _intersect (a :: as) bs := by
  simp [_intersect, Nat.ne_of_gt h, Nat.not_lt_of_gt h]

theorem _intersect_docIDs {p1 p2 : List WPosting} :
    ∀ x ∈ _intersect p1 p2, x.docID ∈ p1.map (fun p => p.docID) := by
  induction p1, p2 using _intersect.induct with
  | case1 bs => rw [_intersect_nil]; intro x hx; cases hx
  | case2 a as => rw [_intersect_nil_right]; intro x hx; cases hx
  | case3 a as b bs h ih =>
    rw [_intersect_cons_eq _ _ _ _ h]
    intro x hx
    rcases List.mem_cons.mp hx with hx | hx
    · simp [hx]
    · simp only [List.map_cons, List.mem_cons]
      exact Or.inr (ih x hx)
  | case4 a as b bs hne hlt ih =>
    rw [_intersect_cons_lt _ _ _ _ hlt]
    intro x hx
    simp only [List.map_cons, List.mem_cons]
    exact Or.inr (ih x hx)
  | case5 a as b bs hne hnlt ih =>
    have hgt : b.docID < a.docID :=
      Nat.lt_of_le_of_ne (Nat.not_lt.mp hnlt) (fun hc => hne hc.symm)
    rw [_intersect_cons_gt _ _ _ _ hgt]
    exact ih

theorem _intersect_sorted {p1 p2 : List WPosting}
    (h1 : PostingsSortedW p1) (h2 : PostingsSortedW p2) :
    PostingsSortedW (_intersect p1 p2) := by
  induction p1, p2 using _intersect.induct with
  | case1 bs => rw [_intersect_nil]; exact List.Pairwise.nil
  | case2 a as => rw [_intersect_nil_right]; exact List.Pairwise.nil
  | case3 a as b bs h ih =>
    rw [_intersect_cons_eq _ _ _ _ h]
    rw [PostingsSortedW, List.pairwise_cons] at h1 h2 ⊢
    refine ⟨?_, ih h1.2 h2.2⟩
    intro y hy
    rcases List.mem_map.mp (_intersect_docIDs y hy) with ⟨e, he, hk⟩
    exact hk ▸ h1.1 e he
  | case4 a as b bs hne hlt ih =>
    rw [_intersect_cons_lt _ _ _ _ hlt]
    rw [PostingsSortedW, List.pairwise_cons] at h1
    exact ih h1.2 h2
  | case5 a as b bs hne hnlt ih =>
    have hgt : b.docID < a.docID :=
      Nat.lt_of_le_of_ne (Nat.not_lt.mp hnlt) (fun hc => hne hc.symm)
    rw [_intersect_cons_gt _ _ _ _ hgt]
    rw [PostingsSortedW, List.pairwise_cons] at h2
    exact ih h1 h2.2

theorem intersectSpec_nil (p2 : List WPosting) : intersectSpec [] p2 = [] := rfl

theorem intersectSpec_nil_right (p1 : List WPosting) : intersectSpec p1 [] = [] := by
  simp [intersectSpec]

theorem intersectSpec_skip {p1 : List WPosting} (b : WPosting) (bs : List WPosting)
    (h : ∀ x ∈ p1, x.docID ≠ b.docID) :
    intersectSpec p1 (b :: bs) = intersectSpec p1 bs := by
  induction p1 with
  | nil => rfl
  | cons a as ih =>
    have hne : ¬((fun y => decide (y.docID = a.docID)) b = true) := by
      simp only [decide_eq_true_eq]
      exact fun hc => h a (List.mem_cons_self _ _) hc.symm
    have heq : List.find? (fun y => decide (y.docID = a.docID)) (b :: bs)
        = List.find? (fun y => decide (y.docID = a.docID)) bs :=
      List.find?_cons_of_neg bs hne
    have htail := ih (fun x hx => h x (List.mem_cons_of_mem _ hx))
    simp only [intersectSpec, List.filterMap_cons] at htail ⊢
    rw [heq, htail]

theorem intersectSpec_cons_left_none {p2 : List WPosting} (a : WPosting)
    (as : List WPosting) (h : ∀ y ∈ p2, y.docID ≠ a.docID) :
    intersectSpec (a :: as) p2 = intersectSpec as p2 := by
  have hnone : p2.find? (fun y => decide (y.docID = a.docID)) = none := by
    rw [List.find?_eq_none]
    intro x hx
    simp only [decide_eq_true_eq]
    exact h x hx
  simp only [intersectSpec, List.filterMap_cons, hnone, Option.map_none']

theorem intersectSpec_cons_cons_pos (a b : WPosting) (as bs : List WPosting)
    (h : b.docID = a.docID) :
    intersectSpec (a :: as) (b :: bs)
      = WPosting.mk a.docID (a.tf_idf + b.tf_idf) :: intersectSpec as (b :: bs) := by
  have heq : List.find? (fun y => decide (y.docID = a.docID)) (b :: bs) = some b :=
    List.find?_cons_of_pos bs (by simp [h])
  simp only [intersectSpec, List.filterMap_cons, heq, Option.map_some']

theorem _intersect_eq_spec {p1 p2 : List WPosting}
    (h1 : PostingsSortedW p1) (h2 : PostingsSortedW p2) :
    _intersect p1 p2 = intersectSpec p1 p2 := by
  induction p1, p2 using _intersect.induct with
  | case1 bs => rw [_intersect_nil, intersectSpec_nil]
  | case2 a as => rw [_intersect_nil_right, intersectSpec_nil_right]
  | case3 a as b bs h ih =>
    rw [PostingsSortedW, List.pairwise_cons] at h1 h2
    rw [_intersect_cons_eq _ _ _ _ h, ih h1.2 h2.2,
      intersectSpec_cons_cons_pos _ _ _ _ h.symm,
      intersectSpec_skip b bs (fun x hx => by have := h1.1 x hx; omega)]
  | case4 a as b bs hne hlt ih =>
    have h2' := h2
    rw [PostingsSortedW, List.pairwise_cons] at h1 h2'
    rw [_intersect_cons_lt _ _ _ _ hlt, ih h1.2 h2,
      intersectSpec_cons_left_none a as (fun y hy => by
        rcases List.mem_cons.mp hy with hy | hy
        · subst hy; omega
        · have := h2'.1 y hy; omega)]
  | case5 a as b bs hne hnlt ih =>
    have hgt : b.docID < a.docID :=
      Nat.lt_of_le_of_ne (Nat.not_lt.mp hnlt) (fun hc => hne hc.symm)
    have h1' := h1
    rw [PostingsSortedW, List.pairwise_cons] at h1' h2
    rw [_intersect_cons_gt _ _ _ _ hgt, ih h1 h2.2,
      intersectSpec_skip b bs (fun x hx => by
        rcases List.mem_cons.mp hx with hx | hx
        · subst hx; omega
        · have := h1'.1 x hx; omega)]

/-! ### Lemmas about `Searcher._merge` -/

theorem _merge_nil (bs : List WPosting) : _merge [] bs = bs := by
  simp [_merge]

theorem _merge_nil_right (as : List WPosting) : _merge as [] = as := by
  cases as <;> simp [_merge]

theorem _merge_cons_eq (a b : WPosting) (as bs : List WPosting)
    (h : a.docID = b.docID) :
    _merge (a :: as) (b :: bs)
      = WPosting.mk a.docID (a.tf_idf + b.tf_idf) :: _merge as bs := by
  simp [_merge, h]

theorem _merge_cons_lt (a b : WPosting) (as bs : List WPosting)
    (h : a.docID < b.docID) :
    _merge (a :: as) (b :: bs) = a :: _merge as (b :: bs) := by
  simp [_merge, Nat.ne_of_lt h, h]

theorem _merge_cons_gt (a b : WPosting) (as bs : List WPosting)
    (h : b.docID < a.docID) :
    _merge (a :: as) (b :: bs) = b :: _merge (a :: as) bs := by
  simp [_merge, Nat.ne_of_gt h, Nat.not_lt_of_gt h]

theorem _merge_docIDs {p1 p2 : List WPosting} :
    ∀ x ∈ _merge p1 p2,
      x.docID ∈ p1.map (fun p => p.docID) ∨ x.docID ∈ p2.map (fun p => p.docID) := by
  induction p1, p2 using _merge.induct with
  | case1 bs =>
    rw [_merge_nil]; intro x hx; exact Or.inr (List.mem_map_of_mem _ hx)
  | case2 a as =>
    rw [_merge_nil_right]; intro x hx; exact Or.inl (List.mem_map_of_mem _ hx)
  | case3 a as b bs h ih =>
    rw [_merge_cons_eq _ _ _ _ h]
    intro x hx
    rcases List.mem_cons.mp hx with hx | hx
    · exact Or.inl (by simp [hx])
    · rcases ih x hx with h' | h'
      · exact Or.inl (by simp only [List.map_cons, List.mem_cons]; exact Or.inr h')
      · exact Or.inr (by simp only [List.map_cons, List.mem_cons]; exact Or.inr h')
  | case4 a as b bs hne hlt ih =>
    rw [_merge_cons_lt _ _ _ _ hlt]
    intro x hx
    rcases List.mem_cons.mp hx with hx | hx
    · exact Or.inl (by simp [hx])
    · rcases ih x hx with h' | h'
      · exact Or.inl (by simp only [List.map_cons, List.mem_cons]; exact Or.inr h')
      · exact Or.inr h'
  | case5 a as b bs hne hnlt ih =>
    have hgt : b.docID < a.docID :=
      Nat.lt_of_le_of_ne (Nat.not_lt.mp hnlt) (fun hc => hne hc.symm)
    rw [_merge_cons_gt _ _ _ _ hgt]
    intro x hx
    rcases List.mem_cons.mp hx with hx | hx
    · exact Or.inr (by simp [hx])
    · rcases ih x hx with h' | h'
      · exact Or.inl h'
      · exact Or.inr (by simp only [List.map_cons, List.mem_cons]; exact Or.inr h')

theorem _merge_sorted {p1 p2 : List WPosting}
    (h1 : PostingsSortedW p1) (h2 : PostingsSortedW p2) :
    PostingsSortedW (_merge p1 p2) := by
  induction p1, p2 using _merge.induct with
  | case1 bs => rwa [_merge_nil]
  | case2 a as => rwa [_merge_nil_right]
  | case3 a as b bs h ih =>
    rw [_merge_cons_eq _ _ _ _ h]
    rw [PostingsSortedW, List.pairwise_cons] at h1 h2 ⊢
    refine ⟨?_, ih h1.2 h2.2⟩
    intro y hy
    rcases _merge_docIDs y hy with h' | h' <;>
      rcases List.mem_map.mp h' with ⟨e, he, hk⟩
    · exact hk ▸ h1.1 e he
    · exact hk ▸ h ▸ h2.1 e he
  | case4 a as b bs hne hlt ih =>
    rw [_merge_cons_lt _ _ _ _ hlt]
    rw [PostingsSortedW, List.pairwise_cons] at h1 ⊢
    refine ⟨?_, ih h1.2 h2⟩
    intro y hy
    rcases _merge_docIDs y hy with h' | h' <;>
      rcases List.mem_map.mp h' with ⟨e, he, hk⟩
    · exact hk ▸ h1.1 e he
    · rcases List.mem_cons.mp he with he | he
      · rw [← hk, he]; exact hlt
      · rw [PostingsSortedW, List.pairwise_cons] at h2
        exact hk ▸ lt_trans hlt (h2.1 e he)
  | case5 a as b bs hne hnlt ih =>
    have hgt : b.docID < a.docID :=
      Nat.lt_of_le_of_ne (Nat.not_lt.mp hnlt) (fun hc => hne hc.symm)
    rw [_merge_cons_gt _ _ _ _ hgt]
    rw [PostingsSortedW, List.pairwise_cons] at h2 ⊢
    refine ⟨?_, ih h1 h2.2⟩
    intro y hy
    rcases _merge_docIDs y hy with h' | h' <;>
      rcases List.mem_map.mp h' with ⟨e, he, hk⟩
    · rcases List.mem_cons.mp he with he | he
      · rw [← hk, he]; exact hgt
      · rw [PostingsSortedW, List.pairwise_cons] at h1
        exact hk ▸ lt_trans hgt (h1.1 e he)
    · exact hk ▸ h2.1 e he

/-! ### Lemmas about the spec-side union -/

theorem mergeKeys_nil (es : List Nat) : mergeKeys [] es = es := by
  simp [mergeKeys]

theorem mergeKeys_nil_right (ds : List Nat) : mergeKeys ds [] = ds := by
  cases ds <;> simp [mergeKeys]

theorem mergeKeys_cons_eq (d e : Nat) (ds es : List Nat) (h : d = e) :
    mergeKeys (d :: ds) (e :: es) = d :: mergeKeys ds es := by
  simp [mergeKeys, h]

theorem mergeKeys_cons_lt (d e : Nat) (ds es : List Nat) (h : d < e) :
    mergeKeys (d :: ds) (e :: es) = d :: mergeKeys ds (e :: es) := by
  simp [mergeKeys, Nat.ne_of_lt h, h]

theorem mergeKeys_cons_gt (d e : Nat) (ds es : List Nat) (h : e < d) :
    mergeKeys (d :: ds) (e :: es) = e :: mergeKeys (d :: ds) es := by
  simp [mergeKeys, Nat.ne_of_gt h, Nat.not_lt_of_gt h]

theorem mergeKeys_mem {ds es : List Nat} :
    ∀ d ∈ mergeKeys ds es, d ∈ ds ∨ d ∈ es := by
  induction ds, es using mergeKeys.induct with
  | case1 es => rw [mergeKeys_nil]; exact fun d hd => Or.inr hd
  | case2 d ds => rw [mergeKeys_nil_right]; exact fun d hd => Or.inl hd
  | case3 ds e es ih =>
    rw [mergeKeys_cons_eq _ _ _ _ rfl]
    intro x hx
    rcases List.mem_cons.mp hx with hx | hx
    · exact Or.inl (by simp [hx])
    · rcases ih x hx with h' | h'
      · exact Or.inl (List.mem_cons_of_mem _ h')
      · exact Or.inr (List.mem_cons_of_mem _ h')
  | case4 d ds e es hne hlt ih =>
    rw [mergeKeys_cons_lt _ _ _ _ hlt]
    intro x hx
    rcases List.mem_cons.mp hx with hx | hx
    · exact Or.inl (by simp [hx])
    · rcases ih x hx with h' | h'
      · exact Or.inl (List.mem_cons_of_mem _ h')
      · exact Or.inr h'
  | case5 d ds e es hne hnlt ih =>
    have hgt : e < d := Nat.lt_of_le_of_ne (Nat.not_lt.mp hnlt) (fun hc => hne hc.symm)
    rw [mergeKeys_cons_gt _ _ _ _ hgt]
    intro x hx
    rcases List.mem_cons.mp hx with hx | hx
    · exact Or.inr (by simp [hx])
    · rcases ih x hx with h' | h'
      · exact Or.inl h'
      · exact Or.inr (List.mem_cons_of_mem _ h')

theorem tfSum_nil (d : Nat) : tfSum [] d = 0 := rfl

theorem tfSum_cons_eq (p : WPosting) (ps : List WPosting) {d : Nat}
    (h : p.docID = d) : tfSum (p :: ps) d = p.tf_idf + tfSum ps d := by
  simp [tfSum, List.filter_cons, h]

theorem tfSum_cons_ne (p : WPosting) (ps : List WPosting) {d : Nat}
    (h : p.docID ≠ d) : tfSum (p :: ps) d = tfSum ps d := by
  simp [tfSum, List.filter_cons, h]

theorem tfSum_eq_zero {ps : List WPosting} {d : Nat}
    (h : ∀ x ∈ ps, x.docID ≠ d) : tfSum ps d = 0 := by
  rw [tfSum, List.filter_eq_nil_iff.mpr]
  · rfl
  · intro x hx
    simp only [decide_eq_true_eq]
    exact h x hx

theorem map_key_tfSum {bs : List WPosting} (hs : PostingsSortedW bs) :
    (bs.map (fun p => p.docID)).map (fun d => WPosting.mk d (tfSum bs d)) = bs := by
  induction bs with
  | nil => rfl
  | cons b bs ih =>
    rw [PostingsSortedW, List.pairwise_cons] at hs
    simp only [List.map_cons]
    congr 1
    · rw [tfSum_cons_eq b bs rfl, tfSum_eq_zero (fun x hx => ne_of_gt (hs.1 x hx)),
        add_zero]
    · calc (bs.map (fun p => p.docID)).map (fun d => WPosting.mk d (tfSum (b :: bs) d))
          = (bs.map (fun p => p.docID)).map (fun d => WPosting.mk d (tfSum bs d)) := by
            apply List.map_congr_left
            intro d hd
            rcases List.mem_map.mp hd with ⟨x, hx, rfl⟩
            rw [tfSum_cons_ne b bs (ne_of_lt (hs.1 x hx))]
        _ = bs := ih hs.2

theorem unionSpec_nil {bs : List WPosting} (hs : PostingsSortedW bs) :
    unionSpec [] bs = bs := by
  unfold unionSpec
  rw [List.map_nil, mergeKeys_nil]
  calc (bs.map (fun p => p.docID)).map (fun d => WPosting.mk d (tfSum [] d + tfSum bs d))
      = (bs.map (fun p => p.docID)).map (fun d => WPosting.mk d (tfSum bs d)) := by
        simp only [tfSum_nil, zero_add]
    _ = bs := map_key_tfSum hs

theorem unionSpec_nil_right {as : List WPosting} (hs : PostingsSortedW as) :
    unionSpec as [] = as := by
  unfold unionSpec
  rw [List.map_nil, mergeKeys_nil_right]
  calc (as.map (fun p => p.docID)).map (fun d => WPosting.mk d (tfSum as d + tfSum [] d))
      = (as.map (fun p => p.docID)).map (fun d => WPosting.mk d (tfSum as d)) := by
        simp only [tfSum_nil, add_zero]
    _ = as := map_key_tfSum hs

theorem _merge_eq_spec {p1 p2 : List WPosting}
    (h1 : PostingsSortedW p1) (h2 : PostingsSortedW p2) :
    _merge p1 p2 = unionSpec p1 p2 := by
  induction p1, p2 using _merge.induct with
  | case1 bs => rw [_merge_nil, unionSpec_nil h2]
  | case2 a as => rw [_merge_nil_right, unionSpec_nil_right h1]
  | case3 a as b bs h ih =>
    have h1' := h1
    have h2' := h2
    rw [PostingsSortedW, List.pairwise_cons] at h1' h2'
    rw [_merge_cons_eq _ _ _ _ h, ih h1'.2 h2'.2]
    unfold unionSpec
    simp only [List.map_cons]
    rw [mergeKeys_cons_eq _ _ _ _ h]
    simp only [List.map_cons]
    have hza : tfSum as a.docID = 0 :=
      tfSum_eq_zero (fun x hx => ne_of_gt (h1'.1 x hx))
    have hzb : tfSum bs a.docID = 0 := by
      refine tfSum_eq_zero ?_
      intro x hx
      have := h2'.1 x hx
      omega
    congr 1
    · rw [tfSum_cons_eq a as rfl, tfSum_cons_eq b bs h.symm, hza, hzb,
        add_zero, add_zero]
    · apply List.map_congr_left
      intro d hd
      have hda : a.docID < d := by
        rcases mergeKeys_mem d hd with h' | h'
        · rcases List.mem_map.mp h' with ⟨x, hx, rfl⟩
          exact h1'.1 x hx
        · rcases List.mem_map.mp h' with ⟨x, hx, rfl⟩
          rw [h]
          exact h2'.1 x hx
      rw [tfSum_cons_ne a as (ne_of_lt hda),
        tfSum_cons_ne b bs (by rw [← h]; exact ne_of_lt hda)]
  | case4 a as b bs hne hlt ih =>
    have h1' := h1
    have h2' := h2
    rw [PostingsSortedW, List.pairwise_cons] at h1' h2'
    rw [_merge_cons_lt _ _ _ _ hlt, ih h1'.2 h2]
    unfold unionSpec
    simp only [List.map_cons]
    rw [mergeKeys_cons_lt _ _ _ _ hlt]
    simp only [List.map_cons]
    have hza : tfSum as a.docID = 0 :=
      tfSum_eq_zero (fun x hx => ne_of_gt (h1'.1 x hx))
    have hzb : tfSum (b :: bs) a.docID = 0 := by
      refine tfSum_eq_zero ?_
      intro x hx
      rcases List.mem_cons.mp hx with hx | hx
      · subst hx; omega
      · have := h2'.1 x hx; omega
    congr 1
    · rw [tfSum_cons_eq a as rfl, hza, hzb, add_zero, add_zero]
    · apply List.map_congr_left
      intro d hd
      have hda : a.docID < d := by
        rcases mergeKeys_mem d hd with h' | h'
        · rcases List.mem_map.mp h' with ⟨x, hx, rfl⟩
          exact h1'.1 x hx
        · rcases (by simpa using h' : d = b.docID ∨ ∃ x ∈ bs, x.docID = d) with h'' | ⟨x, hx, rfl⟩
          · omega
          · have := h2'.1 x hx
            omega
      rw [tfSum_cons_ne a as (ne_of_lt hda)]
  | case5 a as b bs hne hnlt ih =>
    have hgt : b.docID < a.docID :=
      Nat.lt_of_le_of_ne (Nat.not_lt.mp hnlt) (fun hc => hne hc.symm)
    have h1' := h1
    have h2' := h2
    rw [PostingsSortedW, List.pairwise_cons] at h1' h2'
    rw [_merge_cons_gt _ _ _ _ hgt, ih h1 h2'.2]
    unfold unionSpec
    simp only [List.map_cons]
    rw [mergeKeys_cons_gt _ _ _ _ hgt]
    simp only [List.map_cons]
    have hza : tfSum (a :: as) b.docID = 0 := by
      refine tfSum_eq_zero ?_
      intro x hx
      rcases List.mem_cons.mp hx with hx | hx
      · subst hx; omega
      · have := h1'.1 x hx; omega
    have hzb : tfSum bs b.docID = 0 :=
      tfSum_eq_zero (fun x hx => ne_of_gt (h2'.1 x hx))
    congr 1
    · rw [tfSum_cons_eq b bs rfl, hza, hzb, add_zero, zero_add]
    · apply List.map_congr_left
      intro d hd
      have hdb : b.docID < d := by
        rcases mergeKeys_mem d hd with h' | h'
        · rcases (by simpa using h' : d = a.docID ∨ ∃ x ∈ as, x.docID = d) with h'' | ⟨x, hx, rfl⟩
          · omega
          · have := h1'.1 x hx
            omega
        · rcases List.mem_map.mp h' with ⟨x, hx, rfl⟩
          exact h2'.1 x hx
      rw [tfSum_cons_ne b bs (ne_of_lt hdb)]

theorem foldl_intersect_eq {ls : List (List WPosting)} {acc : List WPosting}
    (hacc : PostingsSortedW acc) (hls : ∀ l ∈ ls, PostingsSortedW l) :
    ls.foldl _intersect acc = ls.foldl intersectSpec acc := by
  induction ls generalizing acc with
  | nil => rfl
  | cons l ls ih =>
    simp only [List.foldl_cons]
    rw [ih (_intersect_sorted hacc (hls l (List.mem_cons_self _ _)))
        (fun x hx => hls x (List.mem_cons_of_mem _ hx)),
      _intersect_eq_spec hacc (hls l (List.mem_cons_self _ _))]

theorem foldl_merge_eq {ls : List (List WPosting)} {acc : List WPosting}
    (hacc : PostingsSortedW acc) (hls : ∀ l ∈ ls, PostingsSortedW l) :
    ls.foldl _merge acc = ls.foldl unionSpec acc := by
  induction ls generalizing acc with
  | nil => rfl
  | cons l ls ih =>
    simp only [List.foldl_cons]
    rw [ih (_merge_sorted hacc (hls l (List.mem_cons_self _ _)))
        (fun x hx => hls x (List.mem_cons_of_mem _ hx)),
      _merge_eq_spec hacc (hls l (List.mem_cons_self _ _))]

theorem intersectFold_eq {ls : List (List WPosting)}
    (hls : ∀ l ∈ ls, PostingsSortedW l) :
    intersectFold ls = intersectFoldSpec ls := by
  cases ls with
  | nil => rfl
  | cons h t =>
    exact foldl_intersect_eq (hls h (List.mem_cons_self _ _))
      (fun x hx => hls x (List.mem_cons_of_mem _ hx))

theorem mergeFold_eq {ls : List (List WPosting)}
    (hls : ∀ l ∈ ls, PostingsSortedW l) :
    mergePostingLists ls = mergeFoldSpec ls := by
  cases ls with
  | nil => rfl
  | cons h t =>
    exact foldl_merge_eq (hls h (List.mem_cons_self _ _))
      (fun x hx => hls x (List.mem_cons_of_mem _ hx))

theorem sortByLen_sorted_lists {ls : List (List WPosting)}
    (hls : ∀ l ∈ ls, PostingsSortedW l) :
    ∀ l ∈ sortByLen ls, PostingsSortedW l := by
  intro l hl
  exact hls l ((List.perm_insertionSort _ _).mem_iff.mp hl)

theorem searchQuery_eq_searchQuerySpec (wordTokenize : String → List String)
    (stem : String → String) (read : String → List WPosting)
    (docIDtoURL : List String) (maxResults : Nat) (query : String)
    (hread : ∀ t, PostingsSortedW (read t)) :
    searchQuery wordTokenize stem read docIDtoURL maxResults query
      = searchQuerySpec wordTokenize stem read docIDtoURL maxResults query := by
  unfold searchQuery searchQuerySpec
  dsimp only
  have hls : ∀ l ∈ sortByLen ((dedupFirst (tokenize wordTokenize stem query)).map read),
      PostingsSortedW l := by
    refine sortByLen_sorted_lists ?_
    intro l hl
    rcases List.mem_map.mp hl with ⟨t, _, rfl⟩
    exact hread t
  rw [intersectFold_eq hls, mergeFold_eq hls]

/-! ### Lemmas about `tokenizer.computeWordFrequencies` -/

theorem dictGet?_nil (s : String) : dictGet? [] s = none := rfl

theorem dictGet?_isSome_iff {m : List (String × Nat)} {s : String} :
    (dictGet? m s).isSome ↔ s ∈ m.map Prod.fst := by
  rw [dictGet?]
  rcases hf : m.find? (fun e => decide (e.1 = s)) with _ | e
  · rw [hf]
    simp only [Option.map_none', Option.isSome_none, Bool.false_eq_true, false_iff]
    intro hs
    rcases List.mem_map.mp hs with ⟨x, hx, hk⟩
    have := List.find?_eq_none.mp hf x hx
    simp [hk] at this
  · rw [hf]
    simp only [Option.map_some', Option.isSome_some, true_iff]
    have hp := List.find?_some hf
    simp only [decide_eq_true_eq] at hp
    exact hp ▸ List.mem_map_of_mem _ (List.mem_of_find?_eq_some hf)

theorem dictGet?_bump (m : List (String × Nat)) (t s : String) :
    dictGet? (bump m t) s
      = if s = t then some ((dictGet? m t).getD 0 + 1) else dictGet? m s := by
  induction m with
  | nil =>
    by_cases hst : s = t
    · simp [bump, dictGet?, hst]
    · simp [bump, dictGet?, hst, Ne.symm hst]
  | cons e rest ih =>
    rcases e with ⟨a, n⟩
    by_cases hat : a = t
    · subst hat
      by_cases hsa : s = a
      · simp [bump, dictGet?, hsa]
      · simp [bump, dictGet?, hsa, Ne.symm hsa]
    · by_cases hsa : s = a
      · have hst : ¬s = t := by rw [hsa]; exact hat
        simp [bump, dictGet?, hat, hsa, hst]
      · have h1 : dictGet? ((a, n) :: bump rest t) s = dictGet? (bump rest t) s := by
          simp [dictGet?, List.find?_cons_of_neg, Ne.symm hsa, hsa]
        have h2 : dictGet? ((a, n) :: rest) s = dictGet? rest s := by
          simp [dictGet?, List.find?_cons_of_neg, Ne.symm hsa, hsa]
        have h3 : dictGet? ((a, n) :: rest) t = dictGet? rest t := by
          simp [dictGet?, List.find?_cons_of_neg, Ne.symm hat, hat]
        simp only [bump, if_neg hat, h1, h2, h3, ih]

theorem dictGet?_foldl_bump (toks : List String) :
    ∀ (m : List (String × Nat)) (s : String),
      dictGet? (toks.foldl bump m) s
        = if s ∈ toks then some ((dictGet? m s).getD 0 + toks.count s)
          else dictGet? m s := by
  induction toks with
  | nil => intro m s; simp
  | cons t ts ih =>
    intro m s
    simp only [List.foldl_cons]
    rw [ih (bump m t) s, dictGet?_bump]
    by_cases hst : s = t
    · subst hst
      simp only [List.mem_cons, true_or, if_true, if_pos rfl, List.count_cons_self]
      by_cases hsts : s ∈ ts
      · simp only [if_pos hsts, Option.getD_some]
        congr 1
        omega
      · simp only [if_neg hsts, List.count_eq_zero_of_not_mem hsts]
    · simp only [if_neg hst, List.count_cons_of_ne hst]
      by_cases hsts : s ∈ ts
      · simp [List.mem_cons, hsts, hst]
      · have : ¬s ∈ t :: ts := by
          simp [List.mem_cons, hst, hsts]
        simp [hsts, this]

theorem dictGet?_computeWordFrequencies (toks : List String) (s : String) :
    dictGet? (computeWordFrequencies toks) s
      = if s ∈ toks then some (toks.count s) else none := by
  rw [computeWordFrequencies, dictGet?_foldl_bump]
  simp [dictGet?]

theorem mem_keys_computeWordFrequencies (toks : List String) (s : String) :
    s ∈ (computeWordFrequencies toks).map Prod.fst ↔ s ∈ toks := by
  rw [← dictGet?_isSome_iff, dictGet?_computeWordFrequencies]
  by_cases h : s ∈ toks <;> simp [h]

theorem bump_keys (m : List (String × Nat)) (t : String) :
    (bump m t).map Prod.fst = m.map Prod.fst
      ∨ (bump m t).map Prod.fst = m.map Prod.fst ++ [t] ∧ t ∉ m.map Prod.fst := by
  induction m with
  | nil => right; simp [bump]
  | cons e rest ih =>
    rcases e with ⟨a, n⟩
    by_cases hat : a = t
    · left; simp [bump, hat]
    · rcases ih with h | ⟨h, hmem⟩
      · left; simp [bump, hat, h]
      · right
        constructor
        · simp [bump, hat, h]
        · simp only [List.map_cons, List.mem_cons]
          push_neg
          exact ⟨fun hc => hat hc.symm, hmem⟩

theorem nodup_keys_foldl_bump (toks : List String) :
    ∀ m : List (String × Nat), (m.map Prod.fst).Nodup →
      ((toks.foldl bump m).map Prod.fst).Nodup := by
  induction toks with
  | nil => intro m hm; simpa using hm
  | cons t ts ih =>
    intro m hm
    simp only [List.foldl_cons]
    refine ih (bump m t) ?_
    rcases bump_keys m t with h | ⟨h, hmem⟩
    · rwa [h]
    · rw [h]
      refine List.Nodup.append hm (List.nodup_singleton t) ?_
      intro x hx hx2
      simp only [List.mem_singleton] at hx2
      exact hmem (hx2 ▸ hx)

theorem nodup_keys_computeWordFrequencies (toks : List String) :
    ((computeWordFrequencies toks).map Prod.fst).Nodup := by
  rw [computeWordFrequencies]
  exact nodup_keys_foldl_bump toks [] (by simp)

/-! ### Lemmas about `Indexer.parseDocument` -/

theorem postOf_cons_self (e : String × RawPosting)
    (rest : List (String × RawPosting)) (s : String) (h : e.1 = s) :
    postOf (e :: rest) s = some e.2 := by
  have heq : List.find? (fun x => decide (x.1 = s)) (e :: rest) = some e :=
    List.find?_cons_of_pos rest (by simp [h])
  rw [postOf, heq, Option.map_some']

theorem postOf_cons_ne (e : String × RawPosting)
    (rest : List (String × RawPosting)) (s : String) (h : e.1 ≠ s) :
    postOf (e :: rest) s = postOf rest s := by
  have heq : List.find? (fun x => decide (x.1 = s)) (e :: rest)
      = List.find? (fun x => decide (x.1 = s)) rest :=
    List.find?_cons_of_neg rest (by simp [h])
  rw [postOf, heq, postOf]

theorem setImportance_cons (e : String × RawPosting)
    (rest : List (String × RawPosting)) (tok : String) (w : Nat) :
    setImportance (e :: rest) tok w
      = (if e.1 = tok then (e.1, { e.2 with tokenImportance := some w }) else e)
        :: setImportance rest tok w := rfl

theorem postOf_setImportance (m : List (String × RawPosting)) (tok s : String)
    (w : Nat) :
    postOf (setImportance m tok w) s
      = if s = tok then
          (postOf m s).map (fun p => { p with tokenImportance := some w })
        else postOf m s := by
  induction m with
  | nil =>
    by_cases hst : s = tok <;> simp [setImportance, postOf, hst]
  | cons e rest ih =>
    rw [setImportance_cons]
    by_cases hetok : e.1 = tok
    · rw [if_pos hetok]
      by_cases hse : e.1 = s
      · have hst : s = tok := hse ▸ hetok
        rw [postOf_cons_self (e.1, { e.2 with tokenImportance := some w })
            (setImportance rest tok w) s hse,
          postOf_cons_self e rest s hse, if_pos hst, Option.map_some']
      · rw [postOf_cons_ne (e.1, { e.2 with tokenImportance := some w })
            (setImportance rest tok w) s hse,
          postOf_cons_ne e rest s hse, ih]
    · rw [if_neg hetok]
      by_cases hse : e.1 = s
      · have hst : ¬s = tok := fun hc => hetok (hse.symm ▸ hc)
        rw [postOf_cons_self e (setImportance rest tok w) s hse,
          postOf_cons_self e rest s hse, if_neg hst]
      · rw [postOf_cons_ne e (setImportance rest tok w) s hse,
          postOf_cons_ne e rest s hse, ih]

theorem setImp_option_over (o : Option RawPosting) (w w' : Nat) :
    ((o.map fun p => { p with tokenImportance := some w }).map
        fun p => { p with tokenImportance := some w' })
      = o.map fun p => { p with tokenImportance := some w' } := by
  cases o <;> rfl

theorem postOf_foldl_setImportance (w : Nat) (toks : List String) :
    ∀ (m : List (String × RawPosting)) (s : String),
      postOf (toks.foldl (fun m tok => setImportance m tok w) m) s
        = if s ∈ toks then
            (postOf m s).map (fun p => { p with tokenImportance := some w })
          else postOf m s := by
  induction toks with
  | nil => intro m s; simp
  | cons t ts ih =>
    intro m s
    simp only [List.foldl_cons]
    rw [ih (setImportance m t w) s, postOf_setImportance]
    by_cases hst : s = t
    · subst hst
      simp only [List.mem_cons, true_or, if_true, if_pos rfl]
      by_cases hsts : s ∈ ts
      · rw [if_pos hsts, setImp_option_over]
      · rw [if_neg hsts]
    · by_cases hsts : s ∈ ts
      · have : s ∈ t :: ts := List.mem_cons_of_mem _ hsts
        rw [if_pos hsts, if_pos this, if_neg hst]
      · have : ¬s ∈ t :: ts := by
          simp [List.mem_cons, hst, hsts]
        rw [if_neg hsts, if_neg this, if_neg hst]

theorem postOf_applyTag (m : List (String × RawPosting)) (tg : Tag × List String)
    (s : String) :
    postOf (applyTag m tg) s
      = if s ∈ tg.2 then
          (postOf m s).map
            (fun p => { p with tokenImportance := some (TAG_IMPORTANCE tg.1) })
        else postOf m s := by
  rw [applyTag]
  exact postOf_foldl_setImportance (TAG_IMPORTANCE tg.1) tg.2 m s

theorem postOf_foldl_applyTag (tags : List (Tag × List String)) :
    ∀ (m : List (String × RawPosting)) (s : String),
      postOf (tags.foldl applyTag m) s
        = match (tags.filter (fun tg => s ∈ tg.2)).getLast? with
          | some tg =>
            (postOf m s).map
              (fun p => { p with tokenImportance := some (TAG_IMPORTANCE tg.1) })
          | none => postOf m s := by
  induction tags with
  | nil => intro m s; rfl
  | cons tg tags ih =>
    intro m s
    simp only [List.foldl_cons]
    rw [ih (applyTag m tg) s, postOf_applyTag]
    by_cases hs : s ∈ tg.2
    · rw [if_pos hs]
      have hfc : (tg :: tags).filter (fun tg => decide (s ∈ tg.2))
          = tg :: tags.filter (fun tg => decide (s ∈ tg.2)) :=
        List.filter_cons_of_pos (by simpa using hs)
      rw [hfc]
      rcases hrest : tags.filter (fun tg => decide (s ∈ tg.2)) with _ | ⟨x, xs⟩
      · rw [hrest]
        rfl
      · rw [hrest, List.getLast?_cons_cons]
        have hlast : (x :: xs).getLast? = some ((x :: xs).getLast (by simp)) :=
          List.getLast?_eq_getLast _ (by simp)
        rw [hlast]
        exact setImp_option_over (postOf m s) _ _
    · rw [if_neg hs]
      have hfc : (tg :: tags).filter (fun tg => decide (s ∈ tg.2))
          = tags.filter (fun tg => decide (s ∈ tg.2)) :=
        List.filter_cons_of_neg (by simpa using hs)
      rw [hfc]

theorem setImportance_keys (m : List (String × RawPosting)) (tok : String)
    (w : Nat) : (setImportance m tok w).map Prod.fst = m.map Prod.fst := by
  rw [setImportance, List.map_map]
  apply List.map_congr_left
  intro e he
  by_cases h : e.1 = tok <;> simp [h]

theorem foldl_setImportance_keys (w : Nat) (toks : List String) :
    ∀ m : List (String × RawPosting),
      ((toks.foldl (fun m tok => setImportance m tok w) m).map Prod.fst)
        = m.map Prod.fst := by
  induction toks with
  | nil => intro m; rfl
  | cons t ts ih =>
    intro m
    simp only [List.foldl_cons]
    rw [ih (setImportance m t w), setImportance_keys]

theorem applyTag_keys (m : List (String × RawPosting)) (tg : Tag × List String) :
    (applyTag m tg).map Prod.fst = m.map Prod.fst := by
  rw [applyTag]
  exact foldl_setImportance_keys (TAG_IMPORTANCE tg.1) tg.2 m

theorem foldl_applyTag_keys (tags : List (Tag × List String)) :
    ∀ m : List (String × RawPosting),
      ((tags.foldl applyTag m).map Prod.fst) = m.map Prod.fst := by
  induction tags with
  | nil => intro m; rfl
  | cons tg tags ih =>
    intro m
    simp only [List.foldl_cons]
    rw [ih (applyTag m tg), applyTag_keys]

theorem postOf_eq_of_mem {m : List (String × RawPosting)}
    (hnd : (m.map Prod.fst).Nodup) {e : String × RawPosting} (he : e ∈ m) :
    postOf m e.1 = some e.2 := by
  induction m with
  | nil => cases he
  | cons a rest ih =>
    rw [List.map_cons, List.nodup_cons] at hnd
    rcases List.mem_cons.mp he with he | he
    · subst he
      exact postOf_cons_self e rest e.1 rfl
    · have hne : a.1 ≠ e.1 := by
        intro hc
        exact hnd.1 (hc ▸ List.mem_map_of_mem _ he)
      rw [postOf_cons_ne a rest e.1 hne]
      exact ih hnd.2 he

theorem postOf_map_posting (docID : Nat) (m : List (String × Nat)) (s : String) :
    postOf (m.map (fun e => (e.1, RawPosting.mk docID e.2 none))) s
      = (dictGet? m s).map (fun f => RawPosting.mk docID f none) := by
  induction m with
  | nil => rfl
  | cons e rest ih =>
    simp only [List.map_cons]
    by_cases hse : e.1 = s
    · rw [postOf_cons_self (e.1, RawPosting.mk docID e.2 none) _ s hse]
      have heq : List.find? (fun x => decide (x.1 = s)) (e :: rest) = some e :=
        List.find?_cons_of_pos rest (by simp [hse])
      rw [dictGet?, heq, Option.map_some', Option.map_some']
    · rw [postOf_cons_ne (e.1, RawPosting.mk docID e.2 none) _ s hse, ih]
      have heq : List.find? (fun x => decide (x.1 = s)) (e :: rest)
          = List.find? (fun x => decide (x.1 = s)) rest :=
        List.find?_cons_of_neg rest (by simp [hse])
      have heq2 : dictGet? (e :: rest) s = dictGet? rest s := by
        rw [dictGet?, heq, dictGet?]
      rw [heq2]

theorem parseDocument_keys (content : DocContent) (docID : Nat) :
    (parseDocument content docID).map Prod.fst
      = (computeWordFrequencies content.textTokens).map Prod.fst := by
  rw [parseDocument]
  rw [foldl_applyTag_keys, List.map_map]
  apply List.map_congr_left
  intro e he
  rfl

theorem parseDocument_keys_nodup (content : DocContent) (docID : Nat) :
    ((parseDocument content docID).map Prod.fst).Nodup := by
  rw [parseDocument_keys]
  exact nodup_keys_computeWordFrequencies content.textTokens

theorem postOf_parseDocument (content : DocContent) (docID : Nat) (s : String) :
    postOf (parseDocument content docID) s
      = match (content.tags.filter (fun tg => s ∈ tg.2)).getLast? with
        | some tg =>
          ((dictGet? (computeWordFrequencies content.textTokens) s).map
              (fun f => RawPosting.mk docID f none)).map
            (fun p => { p with tokenImportance := some (TAG_IMPORTANCE tg.1) })
        | none =>
          (dictGet? (computeWordFrequencies content.textTokens) s).map
            (fun f => RawPosting.mk docID f none) := by
  rw [parseDocument, postOf_foldl_applyTag, postOf_map_posting]

theorem parseDocument_entry (content : DocContent) (docID : Nat) :
    ∀ e ∈ parseDocument content docID,
      e.2.docID = docID
        ∧ e.2.tokenFrequency = content.textTokens.count e.1
        ∧ e.2.tokenImportance.getD DEFAULT_IMPORTANCE
            = lastTagWeight content.tags e.1 := by
  intro e he
  have hmem : e.1 ∈ content.textTokens := by
    have h1 : e.1 ∈ (parseDocument content docID).map Prod.fst :=
      List.mem_map_of_mem _ he
    rw [parseDocument_keys] at h1
    exact (mem_keys_computeWordFrequencies _ _).mp h1
  have hpost : postOf (parseDocument content docID) e.1 = some e.2 :=
    postOf_eq_of_mem (parseDocument_keys_nodup content docID) he
  rw [postOf_parseDocument] at hpost
  have hdg : dictGet? (computeWordFrequencies content.textTokens) e.1
      = some (content.textTokens.count e.1) := by
    rw [dictGet?_computeWordFrequencies, if_pos hmem]
  rw [hdg] at hpost
  rcases hlast : (content.tags.filter (fun tg => e.1 ∈ tg.2)).getLast? with _ | tg
  · rw [hlast] at hpost
    simp only [Option.map_some', Option.some.injEq] at hpost
    rw [← hpost, lastTagWeight, hlast]
    exact ⟨rfl, rfl, rfl⟩
  · rw [hlast] at hpost
    simp only [Option.map_some', Option.some.injEq] at hpost
    rw [← hpost, lastTagWeight, hlast]
    exact ⟨rfl, rfl, rfl⟩

theorem parseDocument_mem_keys (content : DocContent) (docID : Nat) (t : String) :
    t ∈ (parseDocument content docID).map Prod.fst ↔ t ∈ content.textTokens := by
  rw [parseDocument_keys]
  exact mem_keys_computeWordFrequencies _ _

/-! ### Lemmas about the spill writer and the accumulator -/

theorem writePartialIndexToDisk_perm (index : List (String × List RawPosting)) :
    (writePartialIndexToDisk index).Perm index :=
  List.perm_insertionSort _ index

theorem writePartialIndexToDisk_termsSorted
    {index : List (String × List RawPosting)}
    (hnd : (index.map Prod.fst).Nodup) :
    TermsSorted (writePartialIndexToDisk index) := by
  have hs : List.Sorted (fun a b : String × List RawPosting => a.1 ≤ b.1)
      (writePartialIndexToDisk index) :=
    List.sorted_insertionSort _ index
  have hnd2 : ((writePartialIndexToDisk index).map Prod.fst).Nodup :=
    (((writePartialIndexToDisk_perm index).map Prod.fst).nodup_iff).mpr hnd
  have hne : (writePartialIndexToDisk index).Pairwise (fun a b => a.1 ≠ b.1) :=
    (List.pairwise_map.mp hnd2)
  rw [TermsSorted]
  exact (hs.and hne).imp (fun h => lt_of_le_of_ne h.1 h.2)

theorem fileDocIDs_perm {f g : List (String × List RawPosting)} (h : f.Perm g) :
    ∀ d ∈ fileDocIDs f, d ∈ fileDocIDs g := by
  intro d hd
  simp only [fileDocIDs, List.mem_flatMap] at hd ⊢
  rcases hd with ⟨e, he, hd⟩
  exact ⟨e, h.mem_iff.mp he, hd⟩

theorem indexInsert_keys (index : List (String × List RawPosting)) (tok : String)
    (p : RawPosting) :
    (indexInsert index tok p).map Prod.fst = index.map Prod.fst
      ∨ (indexInsert index tok p).map Prod.fst = index.map Prod.fst ++ [tok] := by
  rw [indexInsert]
  by_cases h : (index.find? (fun e => e.1 = tok)).isSome
  · left
    rw [if_pos h, List.map_map]
    apply List.map_congr_left
    intro e he
    by_cases he1 : e.1 = tok <;> simp [he1]
  · right
    rw [if_neg h]
    simp

theorem indexInsert_mem {index : List (String × List RawPosting)} {tok : String}
    {p : RawPosting} :
    ∀ e ∈ indexInsert index tok p,
      (e ∈ index ∧ e.1 ≠ tok)
        ∨ (∃ e₀ ∈ index, e₀.1 = tok ∧ e = (e₀.1, e₀.2 ++ [p]))
        ∨ e = (tok, [p]) := by
  intro e he
  rw [indexInsert] at he
  by_cases h : (index.find? (fun e => e.1 = tok)).isSome
  · rw [if_pos h] at he
    rcases List.mem_map.mp he with ⟨e₀, he₀, hupd⟩
    by_cases he1 : e₀.1 = tok
    · right; left
      refine ⟨e₀, he₀, he1, ?_⟩
      rw [← hupd, if_pos he1]
    · left
      rw [← hupd, if_neg he1]
      exact ⟨he₀, he1⟩
  · rw [if_neg h] at he
    rcases List.mem_append.mp he with he | he
    · left
      refine ⟨he, ?_⟩
      intro hc
      apply h
      rw [List.find?_isSome]
      exact ⟨e, he, by simp [hc]⟩
    · right; right
      simpa using he

theorem find?_key_isSome {α : Type} {m : List (String × α)} {s : String} :
    (m.find? (fun e => e.1 = s)).isSome ↔ s ∈ m.map Prod.fst := by
  rw [List.find?_isSome]
  constructor
  · rintro ⟨e, he, hp⟩
    simp only [decide_eq_true_eq] at hp
    exact hp ▸ List.mem_map_of_mem _ he
  · intro hs
    rcases List.mem_map.mp hs with ⟨e, he, hk⟩
    exact ⟨e, he, by simp [hk]⟩

theorem indexInsert_nodup {index : List (String × List RawPosting)} {tok : String}
    {p : RawPosting} (hnd : (index.map Prod.fst).Nodup) :
    ((indexInsert index tok p).map Prod.fst).Nodup := by
  have hnew : ¬(index.find? (fun e => e.1 = tok)).isSome → tok ∉ index.map Prod.fst :=
    fun h hc => h (find?_key_isSome.mpr hc)
  rw [indexInsert]
  by_cases h : (index.find? (fun e => e.1 = tok)).isSome
  · rw [if_pos h]
    have : ((index.map (fun e => if e.1 = tok then (e.1, e.2 ++ [p]) else e)).map
        Prod.fst) = index.map Prod.fst := by
      rw [List.map_map]
      apply List.map_congr_left
      intro e he
      by_cases he1 : e.1 = tok <;> simp [he1]
    rwa [this]
  · rw [if_neg h]
    rw [List.map_append]
    refine List.Nodup.append hnd (by simp) ?_
    intro x hx hx2
    simp only [List.map_cons, List.map_nil, List.mem_singleton] at hx2
    exact (hnew h) (hx2 ▸ hx)

theorem fileDocIDs_exists {f : List (String × List RawPosting)} {d : Nat}
    (hd : d ∈ fileDocIDs f) : ∃ e ∈ f, ∃ p ∈ e.2, p.docID = d := by
  simp only [fileDocIDs, List.mem_flatMap, List.mem_map] at hd
  rcases hd with ⟨e, he, p, hp, hpd⟩
  exact ⟨e, he, p, hp, hpd⟩

theorem fileDocIDs_bound {f : List (String × List RawPosting)} {N : Nat}
    (h : ∀ e ∈ f, ∀ p ∈ e.2, p.docID < N) : ∀ d ∈ fileDocIDs f, d < N := by
  intro d hd
  rcases fileDocIDs_exists hd with ⟨e, he, p, hp, hpd⟩
  exact hpd ▸ h e he p hp

theorem foldl_indexInsert_postings (ps : List (String × RawPosting)) :
    ∀ index : List (String × List RawPosting),
      ∀ e ∈ ps.foldl (fun ix x => indexInsert ix x.1 x.2) index, ∀ q ∈ e.2,
        (∃ e₀ ∈ index, q ∈ e₀.2) ∨ ∃ x ∈ ps, q = x.2 := by
  induction ps with
  | nil =>
    intro ix e he q hq
    exact Or.inl ⟨e, he, hq⟩
  | cons x ps ih =>
    intro ix e he q hq
    rcases ih (indexInsert ix x.1 x.2) e he q hq with ⟨e₀, he₀, hq₀⟩ | ⟨y, hy, hqy⟩
    · rcases indexInsert_mem e₀ he₀ with ⟨hmem, _⟩ | ⟨e₁, he₁, _, heq⟩ | heq
      · exact Or.inl ⟨e₀, hmem, hq₀⟩
      · subst heq
        rcases List.mem_append.mp hq₀ with hq1 | hq1
        · exact Or.inl ⟨e₁, he₁, hq1⟩
        · simp only [List.mem_singleton] at hq1
          exact Or.inr ⟨x, List.mem_cons_self _ _, hq1⟩
      · subst heq
        simp only [List.mem_singleton] at hq₀
        exact Or.inr ⟨x, List.mem_cons_self _ _, hq₀⟩
    · exact Or.inr ⟨y, List.mem_cons_of_mem _ hy, hqy⟩

theorem foldl_indexInsert_inv (D : Nat) (ps : List (String × RawPosting)) :
    ∀ index : List (String × List RawPosting),
      (index.map Prod.fst).Nodup →
      (ps.map Prod.fst).Nodup →
      (∀ e ∈ index, PostingsSortedR e.2) →
      (∀ e ∈ index, ∀ q ∈ e.2, q.docID ≤ D) →
      (∀ e ∈ index, e.1 ∈ ps.map Prod.fst → ∀ q ∈ e.2, q.docID < D) →
      (∀ x ∈ ps, x.2.docID = D) →
      (((ps.foldl (fun ix x => indexInsert ix x.1 x.2) index).map Prod.fst).Nodup
        ∧ (∀ e ∈ ps.foldl (fun ix x => indexInsert ix x.1 x.2) index,
            PostingsSortedR e.2)
        ∧ (∀ e ∈ ps.foldl (fun ix x => indexInsert ix x.1 x.2) index,
            ∀ q ∈ e.2, q.docID ≤ D)) := by
  induction ps with
  | nil =>
    intro ix hnd _ hsorted hbound _ _
    exact ⟨hnd, hsorted, hbound⟩
  | cons x ps ih =>
    intro ix hnd hpsnd hsorted hbound hfresh hval
    simp only [List.map_cons, List.nodup_cons] at hpsnd
    simp only [List.foldl_cons]
    have hxD : x.2.docID = D := hval x (List.mem_cons_self _ _)
    refine ih (indexInsert ix x.1 x.2) (indexInsert_nodup hnd) hpsnd.2 ?_ ?_ ?_
      (fun y hy => hval y (List.mem_cons_of_mem _ hy))
    · -- sortedness after one insert
      intro e he
      rcases indexInsert_mem e he with ⟨hmem, _⟩ | ⟨e₁, he₁, hk, heq⟩ | heq
      · exact hsorted e hmem
      · subst heq
        rw [PostingsSortedR, List.pairwise_append]
      
        refine ⟨hsorted e₁ he₁, List.pairwise_singleton _ _, ?_⟩
        intro q hq y hy
        simp only [List.mem_singleton] at hy
        subst hy
        rw [hxD]
        exact hfresh e₁ he₁ (hk ▸ by simp) q hq
      · subst heq
        exact List.pairwise_singleton _ _
    · -- docID bound after one insert
      intro e he
      rcases indexInsert_mem e he with ⟨hmem, _⟩ | ⟨e₁, he₁, hk, heq⟩ | heq
      · exact hbound e hmem
      · subst heq
        intro q hq
        rcases List.mem_append.mp hq with hq1 | hq1
        · exact hbound e₁ he₁ q hq1
        · simp only [List.mem_singleton] at hq1
          subst hq1
          rw [hxD]
      · subst heq
        intro q hq
        simp only [List.mem_singleton] at hq
        subst hq
        rw [hxD]
    · -- untouched tokens of the remaining postings keep docIDs below D
      intro e he hkey
      rcases indexInsert_mem e he with ⟨hmem, _⟩ | ⟨e₁, he₁, hk, heq⟩ | heq
      · exact hfresh e hmem (List.mem_cons_of_mem _ hkey)
      · subst heq
        exact absurd (hk ▸ hkey) hpsnd.1
      · subst heq
        exact absurd hkey hpsnd.1

theorem processDoc_inv (extract : String → DocContent)
    (spill? : List (String × List RawPosting) → Bool) (st : BuildState)
    (doc : RawDoc) (h : BuildInv st) :
    BuildInv (processDoc extract spill? st doc) := by
  obtain ⟨h1, h2, h3, h4, h5, h6, h7, h8⟩ := h
  rcases doc with _ | ⟨url, html⟩
  · exact ⟨h1, h2, h3, h4, h5, h6, h7, h8⟩
  · simp only [processDoc]
    by_cases hv : url = "" ∨ html = ""
    · rw [if_pos hv]
      exact ⟨h1, h2, h3, h4, h5, h6, h7, h8⟩
    · rw [if_neg hv]
      have hfold := foldl_indexInsert_inv st.currDocID
        (parseDocument (extract html) st.currDocID) st.index h1
        (parseDocument_keys_nodup _ _) h2
        (fun e he q hq => le_of_lt (h3 e he q hq))
        (fun e he _ => h3 e he)
        (fun x hx => (parseDocument_entry _ _ x hx).1)
      have hchase := foldl_indexInsert_postings
        (parseDocument (extract html) st.currDocID) st.index
      have hix1bound : ∀ e ∈ (parseDocument (extract html) st.currDocID).foldl
          (fun ix x => indexInsert ix x.1 x.2) st.index,
          ∀ q ∈ e.2, q.docID < st.currDocID + 1 :=
        fun e he q hq => Nat.lt_succ_of_le (hfold.2.2 e he q hq)
      have hix1range : ∀ f ∈ st.files, ∀ p ∈ fileDocIDs f,
          ∀ e ∈ (parseDocument (extract html) st.currDocID).foldl
            (fun ix x => indexInsert ix x.1 x.2) st.index,
          ∀ q ∈ e.2, p < q.docID := by
        intro f hf p hp e he q hq
        rcases hchase e he q hq with ⟨e₀, he₀, hq₀⟩ | ⟨x, hx, hqx⟩
        · exact h8 f hf p hp e₀ he₀ q hq₀
        · rw [hqx, (parseDocument_entry _ _ x hx).1]
          exact fileDocIDs_bound (h6 f hf) p hp
      by_cases hsp : spill? ((parseDocument (extract html) st.currDocID).foldl
          (fun ix x => indexInsert ix x.1 x.2) st.index) = true
      · rw [if_pos hsp]
        refine ⟨by simp, ?_, ?_, ?_, ?_, ?_, ?_, ?_⟩
        · intro e he; cases he
        · intro e he; cases he
        · intro f hf
          rcases List.mem_append.mp hf with hf | hf
          · exact h4 f hf
          · simp only [List.mem_singleton] at hf
            subst hf
            exact writePartialIndexToDisk_termsSorted hfold.1
        · intro f hf e he
          rcases List.mem_append.mp hf with hf | hf
          · exact h5 f hf e he
          · simp only [List.mem_singleton] at hf
            subst hf
            exact hfold.2.1 e ((writePartialIndexToDisk_perm _).mem_iff.mp he)
        · intro f hf e he q hq
          rcases List.mem_append.mp hf with hf | hf
          · exact Nat.lt_succ_of_lt (h6 f hf e he q hq)
          · simp only [List.mem_singleton] at hf
            subst hf
            exact hix1bound e ((writePartialIndexToDisk_perm _).mem_iff.mp he) q hq
        · rw [List.pairwise_append]
          refine ⟨h7, List.pairwise_singleton _ _, ?_⟩
          intro f hf g hg p hp q hq
          simp only [List.mem_singleton] at hg
          subst hg
          have hq1 : q ∈ fileDocIDs ((parseDocument (extract html)
              st.currDocID).foldl (fun ix x => indexInsert ix x.1 x.2) st.index) :=
            fileDocIDs_perm (writePartialIndexToDisk_perm _) q hq
          rcases fileDocIDs_exists hq1 with ⟨e, he, qp, hqp, hqd⟩
          rw [← hqd]
          exact hix1range f hf p hp e he qp hqp
        · intro f hf p hp e he
          cases he
      · rw [if_neg hsp]
        refine ⟨hfold.1, hfold.2.1, hix1bound, h4, h5, ?_, h7, hix1range⟩
        intro f hf e he q hq
        exact Nat.lt_succ_of_lt (h6 f hf e he q hq)

theorem foldl_processDoc_inv (extract : String → DocContent)
    (spill? : List (String × List RawPosting) → Bool) (docs : List RawDoc) :
    ∀ st : BuildState, BuildInv st →
      BuildInv (docs.foldl (processDoc extract spill?) st) := by
  induction docs with
  | nil => intro st h; exact h
  | cons d ds ih =>
    intro st h
    simp only [List.foldl_cons]
    exact ih _ (processDoc_inv extract spill? st d h)

theorem initialState_inv : BuildInv initialState := by
  refine ⟨by simp [initialState], ?_, ?_, ?_, ?_, ?_, ?_, ?_⟩ <;>
    simp [initialState]

theorem createPartialIndexes_inv (extract : String → DocContent)
    (spill? : List (String × List RawPosting) → Bool) (docs : List RawDoc) :
    (∀ f ∈ (createPartialIndexes extract spill? docs).files, TermsSorted f)
      ∧ (∀ f ∈ (createPartialIndexes extract spill? docs).files,
          ∀ e ∈ f, PostingsSortedR e.2)
      ∧ (∀ f ∈ (createPartialIndexes extract spill? docs).files,
          ∀ e ∈ f, ∀ p ∈ e.2,
            p.docID < (createPartialIndexes extract spill? docs).currDocID)
      ∧ (createPartialIndexes extract spill? docs).files.Pairwise
          (fun f g => ∀ p ∈ fileDocIDs f, ∀ q ∈ fileDocIDs g, p < q) := by
  obtain ⟨h1, h2, h3, h4, h5, h6, h7, h8⟩ :=
    foldl_processDoc_inv extract spill? docs initialState initialState_inv
  rw [createPartialIndexes]
  refine ⟨?_, ?_, ?_, ?_⟩
  · intro f hf
    rcases List.mem_append.mp hf with hf | hf
    · exact h4 f hf
    · simp only [List.mem_singleton] at hf
      subst hf
      exact writePartialIndexToDisk_termsSorted h1
  · intro f hf e he
    rcases List.mem_append.mp hf with hf | hf
    · exact h5 f hf e he
    · simp only [List.mem_singleton] at hf
      subst hf
      exact h2 e ((writePartialIndexToDisk_perm _).mem_iff.mp he)
  · intro f hf e he p hp
    rcases List.mem_append.mp hf with hf | hf
    · exact h6 f hf e he p hp
    · simp only [List.mem_singleton] at hf
      subst hf
      exact h3 e ((writePartialIndexToDisk_perm _).mem_iff.mp he) p hp
  · rw [List.pairwise_append]
    refine ⟨h7, List.pairwise_singleton _ _, ?_⟩
    intro f hf g hg p hp q hq
    simp only [List.mem_singleton] at hg
    subst hg
    have hq1 := fileDocIDs_perm (writePartialIndexToDisk_perm _) q hq
    rcases fileDocIDs_exists hq1 with ⟨e, he, qp, hqp, hqd⟩
    rw [← hqd]
    exact h8 f hf p hp e he qp hqp

theorem foldl_processDoc_counts (extract : String → DocContent)
    (spill? : List (String × List RawPosting) → Bool) (docs : List RawDoc) :
    ∀ st : BuildState,
      ((docs.foldl (processDoc extract spill?) st).docIDtoURL
          = st.docIDtoURL ++ corpusURLs docs)
        ∧ ((docs.foldl (processDoc extract spill?) st).numberOfDocsIndexed
          = st.numberOfDocsIndexed + (docs.filter validDoc).length)
        ∧ ((docs.foldl (processDoc extract spill?) st).currDocID
          = st.currDocID + (docs.filter validDoc).length) := by
  induction docs with
  | nil => intro st; simp [corpusURLs]
  | cons d ds ih =>
    intro st
    simp only [List.foldl_cons]
    rcases d with _ | ⟨url, html⟩
    · have hpd : processDoc extract spill? st none = st := rfl
      have hc : corpusURLs (none :: ds) = corpusURLs ds := by
        simp [corpusURLs]
      have hval : validDoc none = false := rfl
      have hf : (none :: ds).filter validDoc = ds.filter validDoc :=
        List.filter_cons_of_neg (by simp [hval])
      rw [hpd, hc, hf]
      exact ih st
    · by_cases hv : url = "" ∨ html = ""
      · have hpd : processDoc extract spill? st (some (url, html)) = st := by
          simp only [processDoc]
          rw [if_pos hv]
        have hc : corpusURLs (some (url, html) :: ds) = corpusURLs ds := by
          simp only [corpusURLs, List.filterMap_cons]
          rw [if_pos hv]
        have hval : validDoc (some (url, html)) = false := by
          rcases hv with hv | hv <;> simp [validDoc, hv]
        have hf : (some (url, html) :: ds).filter validDoc = ds.filter validDoc :=
          List.filter_cons_of_neg (by simp [hval])
        rw [hpd, hc, hf]
        exact ih st
      · have hd1 : (processDoc extract spill? st (some (url, html))).docIDtoURL
            = st.docIDtoURL ++ [url] := by
          simp only [processDoc]
          rw [if_neg hv]
          by_cases hsp : spill? ((parseDocument (extract html) st.currDocID).foldl
              (fun ix e => indexInsert ix e.1 e.2) st.index) = true
          · rw [if_pos hsp]
          · rw [if_neg hsp]
        have hd2 : (processDoc extract spill? st
              (some (url, html))).numberOfDocsIndexed
            = st.numberOfDocsIndexed + 1 := by
          simp only [processDoc]
          rw [if_neg hv]
          by_cases hsp : spill? ((parseDocument (extract html) st.currDocID).foldl
              (fun ix e => indexInsert ix e.1 e.2) st.index) = true
          · rw [if_pos hsp]
          · rw [if_neg hsp]
        have hd3 : (processDoc extract spill? st (some (url, html))).currDocID
            = st.currDocID + 1 := by
          simp only [processDoc]
          rw [if_neg hv]
          by_cases hsp : spill? ((parseDocument (extract html) st.currDocID).foldl
              (fun ix e => indexInsert ix e.1 e.2) st.index) = true
          · rw [if_pos hsp]
          · rw [if_neg hsp]
        have hc : corpusURLs (some (url, html) :: ds) = url :: corpusURLs ds := by
          simp only [corpusURLs, List.filterMap_cons]
          rw [if_neg hv]
        have hval : validDoc (some (url, html)) = true := by
          push_neg at hv
          simp [validDoc, hv.1, hv.2]
        have hf : (some (url, html) :: ds).filter validDoc
            = some (url, html) :: ds.filter validDoc :=
          List.filter_cons_of_pos hval
        rw [hc, hf]
        obtain ⟨i1, i2, i3⟩ := ih (processDoc extract spill? st (some (url, html)))
        refine ⟨?_, ?_, ?_⟩
        · rw [i1, hd1, List.append_assoc, List.singleton_append]
        · rw [i2, hd2, List.length_cons]
          omega
        · rw [i3, hd3, List.length_cons]
          omega

/-! ### Lemmas about `Indexer.createIndexofIndex` and the offset map -/

theorem dictGet?_cons_self (e : String × Nat) (rest : List (String × Nat))
    (t : String) (h : e.1 = t) : dictGet? (e :: rest) t = some e.2 := by
  have heq : List.find? (fun x => decide (x.1 = t)) (e :: rest) = some e :=
    List.find?_cons_of_pos rest (by simp [h])
  rw [dictGet?, heq, Option.map_some']

theorem dictGet?_cons_ne (e : String × Nat) (rest : List (String × Nat))
    (t : String) (h : e.1 ≠ t) : dictGet? (e :: rest) t = dictGet? rest t := by
  have heq : List.find? (fun x => decide (x.1 = t)) (e :: rest)
      = List.find? (fun x => decide (x.1 = t)) rest :=
    List.find?_cons_of_neg rest (by simp [h])
  rw [dictGet?, heq, dictGet?]

theorem dictGet?_update_self (v : Nat) (k : String) :
    ∀ m : List (String × Nat), k ∈ m.map Prod.fst →
      dictGet? (m.map (fun e => if e.1 = k then (e.1, v) else e)) k = some v := by
  intro m
  induction m with
  | nil => intro h; cases h
  | cons e rest ih =>
    intro hk
    simp only [List.map_cons]
    by_cases hek : e.1 = k
    · rw [if_pos hek]
      exact dictGet?_cons_self (e.1, v) _ k hek
    · rw [if_neg hek, dictGet?_cons_ne e _ k hek]
      refine ih ?_
      rcases List.mem_cons.mp hk with hk | hk
      · exact absurd hk.symm hek
      · exact hk

theorem dictGet?_update_ne (v : Nat) (k t : String) (hne : t ≠ k) :
    ∀ m : List (String × Nat),
      dictGet? (m.map (fun e => if e.1 = k then (e.1, v) else e)) t
        = dictGet? m t := by
  intro m
  induction m with
  | nil => rfl
  | cons e rest ih =>
    simp only [List.map_cons]
    by_cases hek : e.1 = k
    · rw [if_pos hek]
      have het : e.1 ≠ t := fun hc => hne ((hc ▸ hek).symm ▸ rfl)
      rw [dictGet?_cons_ne (e.1, v) _ t het, dictGet?_cons_ne e _ t het, ih]
    · rw [if_neg hek]
      by_cases het : e.1 = t
      · rw [dictGet?_cons_self e _ t het, dictGet?_cons_self e _ t het]
      · rw [dictGet?_cons_ne e _ t het, dictGet?_cons_ne e _ t het, ih]

theorem dictGet?_append_single_self (k : String) (v : Nat) :
    ∀ m : List (String × Nat), k ∉ m.map Prod.fst →
      dictGet? (m ++ [(k, v)]) k = some v := by
  intro m
  induction m with
  | nil => intro _; exact dictGet?_cons_self (k, v) [] k rfl
  | cons e rest ih =>
    intro hk
    simp only [List.map_cons, List.mem_cons] at hk
    push_neg at hk
    rw [List.cons_append, dictGet?_cons_ne e _ k (fun hc => hk.1 hc.symm)]
    exact ih hk.2

theorem dictGet?_append_single_ne (k t : String) (v : Nat) (hne : t ≠ k) :
    ∀ m : List (String × Nat), dictGet? (m ++ [(k, v)]) t = dictGet? m t := by
  intro m
  induction m with
  | nil =>
    simp only [List.nil_append]
    rw [dictGet?_cons_ne (k, v) [] t (fun hc => hne hc.symm)]
  | cons e rest ih =>
    rw [List.cons_append]
    by_cases het : e.1 = t
    · rw [dictGet?_cons_self e _ t het, dictGet?_cons_self e _ t het]
    · rw [dictGet?_cons_ne e _ t het, dictGet?_cons_ne e _ t het, ih]

theorem dictGet?_dictInsert_self (m : List (String × Nat)) (k : String) (v : Nat) :
    dictGet? (dictInsert m k v) k = some v := by
  rw [dictInsert]
  by_cases h : (m.find? (fun e => e.1 = k)).isSome
  · rw [if_pos h]
    exact dictGet?_update_self v k m (find?_key_isSome.mp h)
  · rw [if_neg h]
    exact dictGet?_append_single_self k v m (fun hc => h (find?_key_isSome.mpr hc))

theorem dictGet?_dictInsert_ne (m : List (String × Nat)) (k t : String) (v : Nat)
    (hne : t ≠ k) : dictGet? (dictInsert m k v) t = dictGet? m t := by
  rw [dictInsert]
  by_cases h : (m.find? (fun e => e.1 = k)).isSome
  · rw [if_pos h]
    exact dictGet?_update_ne v k t hne m
  · rw [if_neg h]
    exact dictGet?_append_single_ne k t v hne m

theorem takeWhile_line {l rest : List Char} (h : ∀ c ∈ l, c ≠ '\n') :
    (l ++ '\n' :: rest).takeWhile (fun c => c ≠ '\n') = l := by
  induction l with
  | nil => simp
  | cons c cs ih =>
    have hc : c ≠ '\n' := h c (List.mem_cons_self _ _)
    rw [List.cons_append, List.takeWhile_cons, if_pos (by simp [hc])]
    rw [ih (fun x hx => h x (List.mem_cons_of_mem _ hx))]

theorem readLineAt_head {file : List Char} {off : Nat} {l : List Char}
    {z : List Char} (hdrop : file.drop off = l ++ '\n' :: z)
    (hnl : ∀ c ∈ l, c ≠ '\n') : readLineAt file off = l := by
  rw [readLineAt, hdrop]
  exact takeWhile_line hnl

theorem drop_next_line {file : List Char} {off : Nat} {l : List Char}
    {z : List Char} (hdrop : file.drop off = l ++ '\n' :: z) :
    file.drop (off + l.length + 1) = z := by
  have h1 : file.drop (off + l.length + 1) = (file.drop off).drop (l.length + 1) := by
    rw [List.drop_drop]
    try congr 1
    try omega
  rw [h1, hdrop]
  have h2 : l ++ '\n' :: z = (l ++ ['\n']) ++ z := by simp
  rw [h2]
  have h3 : l.length + 1 = (l ++ ['\n']).length := by simp
  rw [h3, List.drop_left]

theorem createIndexofIndex_valid (parseTerm : List Char → String)
    (file : List Char) (lines : List (List Char)) :
    ∀ (off : Nat) (m : List (String × Nat)),
      (∀ l ∈ lines, ∀ c ∈ l, c ≠ '\n') →
      file.drop off = fileOfLines lines →
      (∀ t o, dictGet? m t = some o → parseTerm (readLineAt file o) = t) →
      ∀ t o, dictGet? (createIndexofIndex parseTerm off lines m) t = some o →
        parseTerm (readLineAt file o) = t := by
  induction lines with
  | nil =>
    intro off m _ _ hm t o h
    exact hm t o h
  | cons line rest ih =>
    intro off m hnl hdrop hm t o h
    rw [createIndexofIndex] at h
    have hdrop1 : file.drop off = line ++ '\n' :: fileOfLines rest := by
      rw [hdrop]; rfl
    refine ih (off + line.length + 1) (dictInsert m (parseTerm line) off)
      (fun l hl => hnl l (List.mem_cons_of_mem _ hl))
      (drop_next_line hdrop1) ?_ t o h
    intro t' o' h'
    by_cases ht : t' = parseTerm line
    · subst ht
      rw [dictGet?_dictInsert_self] at h'
      have ho : o' = off := by injection h' with h''; exact h''.symm
      subst ho
      rw [readLineAt_head hdrop1 (hnl line (List.mem_cons_self _ _))]
    · rw [dictGet?_dictInsert_ne m _ t' off ht] at h'
      exact hm t' o' h'

theorem dictInsert_keys (m : List (String × Nat)) (k : String) (v : Nat) :
    (dictInsert m k v).map Prod.fst = m.map Prod.fst
      ∨ (dictInsert m k v).map Prod.fst = m.map Prod.fst ++ [k] := by
  rw [dictInsert]
  by_cases h : (m.find? (fun e => e.1 = k)).isSome
  · left
    rw [if_pos h, List.map_map]
    apply List.map_congr_left
    intro e he
    by_cases he1 : e.1 = k <;> simp [he1]
  · right
    rw [if_neg h]
    simp

theorem mem_keys_dictInsert_old {m : List (String × Nat)} {k t : String} {v : Nat}
    (h : t ∈ m.map Prod.fst) : t ∈ (dictInsert m k v).map Prod.fst := by
  rcases dictInsert_keys m k v with hk | hk <;> rw [hk]
  · exact h
  · exact List.mem_append.mpr (Or.inl h)

theorem mem_keys_dictInsert_self (m : List (String × Nat)) (k : String) (v : Nat) :
    k ∈ (dictInsert m k v).map Prod.fst := by
  refine dictGet?_isSome_iff.mp ?_
  rw [dictGet?_dictInsert_self]
  rfl

theorem createIndexofIndex_keys_mono (parseTerm : List Char → String)
    (lines : List (List Char)) :
    ∀ (off : Nat) (m : List (String × Nat)) (t : String),
      t ∈ m.map Prod.fst →
      t ∈ (createIndexofIndex parseTerm off lines m).map Prod.fst := by
  induction lines with
  | nil => intro off m t h; exact h
  | cons line rest ih =>
    intro off m t h
    rw [createIndexofIndex]
    exact ih _ _ t (mem_keys_dictInsert_old h)

theorem createIndexofIndex_mem (parseTerm : List Char → String)
    (lines : List (List Char)) :
    ∀ (off : Nat) (m : List (String × Nat)),
      ∀ l ∈ lines,
        parseTerm l ∈ (createIndexofIndex parseTerm off lines m).map Prod.fst := by
  induction lines with
  | nil => intro off m l hl; cases hl
  | cons line rest ih =>
    intro off m l hl
    rw [createIndexofIndex]
    rcases List.mem_cons.mp hl with hl | hl
    · subst hl
      exact createIndexofIndex_keys_mono parseTerm rest _ _ _
        (mem_keys_dictInsert_self m (parseTerm l) off)
    · exact ih _ _ l hl

/-! ### Lemmas about the TF-IDF rewriter -/

theorem calculateTF_IDF_eq (log10 : ℚ → ℚ) (N : Nat)
    (index : List (String × List RawPosting)) :
    calculateTF_IDF log10 N index
      = index.map (fun line =>
          (line.1, line.2.map (tfidfPosting log10 N line.2.length))) := rfl

theorem tfidfPosting_zero_of_df_eq (log10 : ℚ → ℚ) (N : Nat) (p : RawPosting)
    (hlog : log10 1 = 0) (hN : 0 < N) :
    (tfidfPosting log10 N N p).tf_idf = 0 := by
  rw [tfidfPosting]
  have hne : (N : ℚ) ≠ 0 := by
    exact_mod_cast Nat.pos_iff_ne_zero.mp hN
  rw [div_self hne, hlog, mul_zero]

/-! ### Lemmas about `Searcher.readPostingList` and empty queries -/

theorem readPostingList_unknown (indexOfIndex : List (String × Nat))
    (file : List Char) (parseLine : List Char → String → List WPosting)
    (token : String) (h : dictGet? indexOfIndex token = none) :
    readPostingList indexOfIndex file parseLine token = [] := by
  rw [readPostingList, h]

theorem dedupFirst_subset : ∀ (l : List String), ∀ t ∈ dedupFirst l, t ∈ l := by
  intro l
  induction l using dedupFirst.induct with
  | case1 =>
    intro t ht
    rw [dedupFirst] at ht
    cases ht
  | case2 x ts ih =>
    intro t ht
    rw [dedupFirst] at ht
    rcases List.mem_cons.mp ht with ht | ht
    · exact ht ▸ List.mem_cons_self _ _
    · exact List.mem_cons_of_mem _ (List.mem_of_mem_filter (ih t ht))

theorem foldl_intersect_nil : ∀ ls : List (List WPosting),
    ls.foldl _intersect [] = [] := by
  intro ls
  induction ls with
  | nil => rfl
  | cons l ls ih =>
    simp only [List.foldl_cons]
    rw [_intersect_nil]
    exact ih

theorem foldl_merge_nil : ∀ ls : List (List WPosting),
    (∀ l ∈ ls, l = []) → ls.foldl _merge [] = [] := by
  intro ls
  induction ls with
  | nil => intro _; rfl
  | cons l ls ih =>
    intro h
    simp only [List.foldl_cons]
    rw [_merge_nil, h l (List.mem_cons_self _ _)]
    exact ih (fun x hx => h x (List.mem_cons_of_mem _ hx))

theorem searchQuery_empty_reads (wordTokenize : String → List String)
    (stem : String → String) (read : String → List WPosting)
    (docIDtoURL : List String) (maxResults : Nat) (query : String)
    (h : ∀ t ∈ tokenize wordTokenize stem query, read t = []) :
    searchQuery wordTokenize stem read docIDtoURL maxResults query = [] := by
  unfold searchQuery
  dsimp only
  have hall : ∀ l ∈ sortByLen ((dedupFirst (tokenize wordTokenize stem query)).map
      read), l = [] := by
    intro l hl
    have hmem : l ∈ (dedupFirst (tokenize wordTokenize stem query)).map read :=
      (List.perm_insertionSort _ _).mem_iff.mp hl
    rcases List.mem_map.mp hmem with ⟨t, ht, rfl⟩
    exact h t (dedupFirst_subset _ t ht)
  have hand : intersectFold (sortByLen ((dedupFirst
      (tokenize wordTokenize stem query)).map read)) = [] := by
    rcases hc : sortByLen ((dedupFirst (tokenize wordTokenize stem query)).map
        read) with _ | ⟨l, ls⟩
    · rfl
    · rw [intersectFold]
      rw [hall l (by rw [hc]; exact List.mem_cons_self _ _)]
      exact foldl_intersect_nil ls
  rw [hand]
  rw [if_pos rfl]
  have hor : mergePostingLists (sortByLen ((dedupFirst
      (tokenize wordTokenize stem query)).map read)) = [] := by
    rcases hc : sortByLen ((dedupFirst (tokenize wordTokenize stem query)).map
        read) with _ | ⟨l, ls⟩
    · rfl
    · rw [mergePostingLists]
      rw [hall l (by rw [hc]; exact List.mem_cons_self _ _)]
      refine foldl_merge_nil ls ?_
      intro x hx
      exact hall x (by rw [hc]; exact List.mem_cons_of_mem _ hx)
  rw [hor]
  simp [sortDesc]

theorem tokenize_eq_nil_of_invalid (wordTokenize : String → List String)
    (stem : String → String) (query : String)
    (h : ∀ u ∈ wordTokenize (query.trim.toLower), isValidToken u = false) :
    tokenize wordTokenize stem query = [] := by
  rw [tokenize]
  by_cases hq : query = ""
  · rw [if_pos hq]
  · rw [if_neg hq]
    rw [List.filter_eq_nil_iff.mpr]
    · rfl
    · intro u hu
      simp [h u hu]

theorem searchQuery_no_admissible (wordTokenize : String → List String)
    (stem : String → String) (read : String → List WPosting)
    (docIDtoURL : List String) (maxResults : Nat) (query : String)
    (h : ∀ u ∈ wordTokenize (query.trim.toLower), isValidToken u = false) :
    searchQuery wordTokenize stem read docIDtoURL maxResults query = [] := by
  refine searchQuery_empty_reads _ _ _ _ _ _ ?_
  rw [tokenize_eq_nil_of_invalid wordTokenize stem query h]
  intro t ht
  cases ht

/-! ### Claim theorems -/

/-- C1 counterexample: two partial-index files that are term-sorted, have
strictly ascending posting lists, and are docID-disjoint, whose 2-way merge
nevertheless produces a posting list that is not strictly increasing by
docID — the concatenation order follows the merger's argument order, and the
filesystem-iteration order does not guarantee that the first file's docID
range precedes the second's. -/
theorem C1_counterexample :
    (TermsSorted [(("t" : String), [RawPosting.mk 1 1 none])]
      ∧ TermsSorted [(("t" : String), [RawPosting.mk 0 1 none])]
      ∧ (∀ e ∈ [(("t" : String), [RawPosting.mk 1 1 none])], PostingsSortedR e.2)
      ∧ (∀ e ∈ [(("t" : String), [RawPosting.mk 0 1 none])], PostingsSortedR e.2)
      ∧ (∀ p ∈ fileDocIDs [(("t" : String), [RawPosting.mk 1 1 none])],
          ∀ q ∈ fileDocIDs [(("t" : String), [RawPosting.mk 0 1 none])], p ≠ q))
    ∧ ¬(∀ e ∈ mergePartialIndexes [(("t" : String), [RawPosting.mk 1 1 none])]
          [(("t" : String), [RawPosting.mk 0 1 none])], PostingsSortedR e.2) := by
  have hmerge : mergePartialIndexes [(("t" : String), [RawPosting.mk 1 1 none])]
      [(("t" : String), [RawPosting.mk 0 1 none])]
      = [(("t" : String), [RawPosting.mk 1 1 none, RawPosting.mk 0 1 none])] := by
    rw [mergePartialIndexes_cons_eq (("t" : String), [RawPosting.mk 1 1 none])
        (("t" : String), [RawPosting.mk 0 1 none]) [] [] rfl,
      mergePartialIndexes_nil]
    rfl
  constructor
  · refine ⟨List.pairwise_singleton _ _, List.pairwise_singleton _ _, ?_, ?_, ?_⟩
    · intro e he
      rcases List.mem_cons.mp he with he | he
      · subst he; exact List.pairwise_singleton _ _
      · cases he
    · intro e he
      rcases List.mem_cons.mp he with he | he
      · subst he; exact List.pairwise_singleton _ _
      · cases he
    · intro p hp q hq
      simp only [fileDocIDs, List.flatMap_cons, List.flatMap_nil, List.map_cons,
        List.map_nil, List.append_nil, List.mem_singleton] at hp hq
      omega
  · intro hall
    have := hall (("t" : String), [RawPosting.mk 1 1 none, RawPosting.mk 0 1 none])
      (by rw [hmerge]; exact List.mem_cons_self _ _)
    rw [PostingsSortedR, List.pairwise_cons] at this
    have h01 := this.1 (RawPosting.mk 0 1 none) (List.mem_cons_self _ _)
    simp at h01

/-- C1 (amended): every posting list at every build stage is strictly
increasing by docID — the spilled partial files have sorted posting lists and
cover pairwise-increasing docID ranges in creation order — and the 2-way
merge's concatenation on equal terms preserves the strict docID order
provided every docID of its first input precedes every docID of its second
input (which the filesystem-iteration order does not guarantee by itself; it
holds when the pair respects the files' creation order). -/
theorem C1_amended :
    (∀ (extract : String → DocContent)
        (spill? : List (String × List RawPosting) → Bool) (docs : List RawDoc),
      (∀ e ∈ (docs.foldl (processDoc extract spill?) initialState).index,
          PostingsSortedR e.2)
        ∧ (∀ f ∈ (createPartialIndexes extract spill? docs).files,
            ∀ e ∈ f, PostingsSortedR e.2)
        ∧ (createPartialIndexes extract spill? docs).files.Pairwise
            (fun f g => ∀ p ∈ fileDocIDs f, ∀ q ∈ fileDocIDs g, p < q))
    ∧ (∀ A B : List (String × List RawPosting),
        (∀ e ∈ A, PostingsSortedR e.2) → (∀ e ∈ B, PostingsSortedR e.2) →
        (∀ p ∈ fileDocIDs A, ∀ q ∈ fileDocIDs B, p < q) →
        ∀ e ∈ mergePartialIndexes A B, PostingsSortedR e.2) := by
  constructor
  · intro extract spill? docs
    obtain ⟨_, hacc, _, _, _, _, _, _⟩ :=
      foldl_processDoc_inv extract spill? docs initialState initialState_inv
    obtain ⟨_, h2, _, h4⟩ := createPartialIndexes_inv extract spill? docs
    exact ⟨hacc, h2, h4⟩
  · intro A B hA hB hAB
    exact postingsSorted_mergePartialIndexes hA hB hAB

/-- C1 witness: the amended merge preservation applied to two concrete
one-entry files in docID-range order. -/
theorem C1_witness :
    PostingsSortedR [RawPosting.mk 0 1 none, RawPosting.mk 1 1 none] := by
  have hA : ∀ e ∈ [(("t" : String), [RawPosting.mk 0 1 none])],
      PostingsSortedR e.2 := by
    intro e he
    rcases List.mem_cons.mp he with he | he
    · subst he; exact List.pairwise_singleton _ _
    · cases he
  have hB : ∀ e ∈ [(("t" : String), [RawPosting.mk 1 1 none])],
      PostingsSortedR e.2 := by
    intro e he
    rcases List.mem_cons.mp he with he | he
    · subst he; exact List.pairwise_singleton _ _
    · cases he
  have hAB : ∀ p ∈ fileDocIDs [(("t" : String), [RawPosting.mk 0 1 none])],
      ∀ q ∈ fileDocIDs [(("t" : String), [RawPosting.mk 1 1 none])], p < q := by
    intro p hp q hq
    simp only [fileDocIDs, List.flatMap_cons, List.flatMap_nil, List.map_cons,
      List.map_nil, List.append_nil, List.mem_singleton] at hp hq
    omega
  have hmerge : mergePartialIndexes [(("t" : String), [RawPosting.mk 0 1 none])]
      [(("t" : String), [RawPosting.mk 1 1 none])]
      = [(("t" : String), [RawPosting.mk 0 1 none, RawPosting.mk 1 1 none])] := by
    rw [mergePartialIndexes_cons_eq (("t" : String), [RawPosting.mk 0 1 none])
        (("t" : String), [RawPosting.mk 1 1 none]) [] [] rfl,
      mergePartialIndexes_nil]
    rfl
  exact C1_amended.2 _ _ hA hB hAB
    (("t" : String), [RawPosting.mk 0 1 none, RawPosting.mk 1 1 none])
    (by rw [hmerge]; exact List.mem_cons_self _ _)

/-- C2: the TF-IDF rewriter maps every term entry to the same term with every
raw posting replaced by a `{docID, tf_idf}` posting (the output type has
exactly these two fields, mirroring the `pop`/`del` of `tokenImportance` and
`tokenFrequency`); every posting is retained, its docID is preserved, and
`tf_idf = i * (1 + log10 tf) * log10 (N / df)` with `df` the posting-list
length and `i` defaulting to 1; when `df = N` the posting's `tf_idf` is `0`
and it is still present in the output. -/
theorem C2_calculateTF_IDF_spec (log10 : ℚ → ℚ) (N : Nat)
    (index : List (String × List RawPosting)) (hlog : log10 1 = 0) :
    calculateTF_IDF log10 N index
        = index.map (fun line =>
            (line.1, line.2.map (tfidfPosting log10 N line.2.length)))
      ∧ (∀ line ∈ index,
          (line.2.map (tfidfPosting log10 N line.2.length)).length = line.2.length)
      ∧ (∀ line ∈ index, ∀ p ∈ line.2,
          (tfidfPosting log10 N line.2.length p).docID = p.docID
            ∧ (tfidfPosting log10 N line.2.length p).tf_idf
              = (p.tokenImportance.getD DEFAULT_IMPORTANCE : ℚ)
                * (1 + log10 (p.tokenFrequency : ℚ))
                * log10 ((N : ℚ) / (line.2.length : ℚ)))
      ∧ (∀ line ∈ index, line.2.length = N → ∀ p ∈ line.2,
          (tfidfPosting log10 N line.2.length p).tf_idf = 0) := by
  refine ⟨calculateTF_IDF_eq log10 N index, ?_, ?_, ?_⟩
  · intro line _
    exact List.length_map _ _
  · intro line _ p _
    exact ⟨rfl, rfl⟩
  · intro line _ hdf p hp
    have hN : 0 < N := by
      have := List.length_pos.mpr (List.ne_nil_of_mem hp)
      omega
    rw [hdf]
    exact tfidfPosting_zero_of_df_eq log10 N p hlog hN

/-- C2 witness: the boundary case at a concrete one-posting entry with
`df = N = 1` and the constant-zero logarithm. -/
theorem C2_witness :
    (tfidfPosting (fun _ => (0 : ℚ)) 1 1 (RawPosting.mk 0 1 none)).tf_idf = 0 :=
  (C2_calculateTF_IDF_spec (fun _ => (0 : ℚ)) 1
      [(("t" : String), [RawPosting.mk 0 1 none])] rfl).2.2.2
    (("t" : String), [RawPosting.mk 0 1 none]) (List.mem_cons_self _ _) rfl
    (RawPosting.mk 0 1 none) (List.mem_cons_self _ _)

/-- C3: for every query and every maximum result count, the evaluator equals
the spec-side description — deduplicate the tokenized query, fetch each
distinct term's posting list, sort the lists by ascending length, intersect
left-to-right summing `tf_idf` (spec-side: keep exactly the docIDs present in
every list); exactly when the AND-candidates are empty, union left-to-right
summing on collisions and carrying other postings through (spec-side: one
posting per docID of the union with the summed score); rank by descending
`tf_idf` and return at most `maxResults` URLs in rank order — provided every
fetched posting list is strictly increasing by docID. -/
theorem C3_searchQuery_spec (wordTokenize : String → List String)
    (stem : String → String) (read : String → List WPosting)
    (docIDtoURL : List String) (maxResults : Nat) (query : String)
    (hread : ∀ t, PostingsSortedW (read t)) :
    searchQuery wordTokenize stem read docIDtoURL maxResults query
        = searchQuerySpec wordTokenize stem read docIDtoURL maxResults query
      ∧ (searchQuery wordTokenize stem read docIDtoURL maxResults query).length
          ≤ maxResults := by
  refine ⟨searchQuery_eq_searchQuerySpec wordTokenize stem read docIDtoURL
    maxResults query hread, ?_⟩
  unfold searchQuery
  dsimp only
  rw [List.length_map, List.length_take]
  exact min_le_left _ _

/-- C3 witness: the equivalence applied at a concrete query against an index
with empty posting lists. -/
theorem C3_witness :
    searchQuery (fun _ => ["aa"]) id (fun _ => []) [] 5 "aa"
        = searchQuerySpec (fun _ => ["aa"]) id (fun _ => []) [] 5 "aa"
      ∧ (searchQuery (fun _ => ["aa"]) id (fun _ => []) [] 5 "aa").length ≤ 5 :=
  C3_searchQuery_spec (fun _ => ["aa"]) id (fun _ => []) [] 5 "aa"
    (fun _ => List.Pairwise.nil)

/-- C4 counterexample: three term-sorted, docID-disjoint partial files
{A, B, C} sharing a term, for which two pairwise merge orders — the one that
merges (A, B) first and the one that merges (B, A) first, both reachable
depending on the filesystem-iteration order — produce different final
content: the shared term's posting lists are concatenated in argument order. -/
theorem C4_counterexample :
    mergePartialIndexes
        (mergePartialIndexes [(("t" : String), [RawPosting.mk 0 1 none])]
          [(("t" : String), [RawPosting.mk 1 1 none])])
        [(("t" : String), [RawPosting.mk 2 1 none])]
      ≠ mergePartialIndexes
        (mergePartialIndexes [(("t" : String), [RawPosting.mk 1 1 none])]
          [(("t" : String), [RawPosting.mk 0 1 none])])
        [(("t" : String), [RawPosting.mk 2 1 none])] := by
  have h1 : mergePartialIndexes [(("t" : String), [RawPosting.mk 0 1 none])]
      [(("t" : String), [RawPosting.mk 1 1 none])]
      = [(("t" : String), [RawPosting.mk 0 1 none, RawPosting.mk 1 1 none])] := by
    rw [mergePartialIndexes_cons_eq (("t" : String), [RawPosting.mk 0 1 none])
        (("t" : String), [RawPosting.mk 1 1 none]) [] [] rfl,
      mergePartialIndexes_nil]
    rfl
  have h2 : mergePartialIndexes [(("t" : String), [RawPosting.mk 1 1 none])]
      [(("t" : String), [RawPosting.mk 0 1 none])]
      = [(("t" : String), [RawPosting.mk 1 1 none, RawPosting.mk 0 1 none])] := by
    rw [mergePartialIndexes_cons_eq (("t" : String), [RawPosting.mk 1 1 none])
        (("t" : String), [RawPosting.mk 0 1 none]) [] [] rfl,
      mergePartialIndexes_nil]
    rfl
  have h3 : mergePartialIndexes
      [(("t" : String), [RawPosting.mk 0 1 none, RawPosting.mk 1 1 none])]
      [(("t" : String), [RawPosting.mk 2 1 none])]
      = [(("t" : String),
          [RawPosting.mk 0 1 none, RawPosting.mk 1 1 none,
            RawPosting.mk 2 1 none])] := by
    rw [mergePartialIndexes_cons_eq
        (("t" : String), [RawPosting.mk 0 1 none, RawPosting.mk 1 1 none])
        (("t" : String), [RawPosting.mk 2 1 none]) [] [] rfl,
      mergePartialIndexes_nil]
    rfl
  have h4 : mergePartialIndexes
      [(("t" : String), [RawPosting.mk 1 1 none, RawPosting.mk 0 1 none])]
      [(("t" : String), [RawPosting.mk 2 1 none])]
      = [(("t" : String),
          [RawPosting.mk 1 1 none, RawPosting.mk 0 1 none,
            RawPosting.mk 2 1 none])] := by
    rw [mergePartialIndexes_cons_eq
        (("t" : String), [RawPosting.mk 1 1 none, RawPosting.mk 0 1 none])
        (("t" : String), [RawPosting.mk 2 1 none]) [] [] rfl,
      mergePartialIndexes_nil]
    rfl
  rw [h1, h2, h3, h4]
  intro hc
  simp only [List.cons.injEq, Prod.mk.injEq, RawPosting.mk.injEq, and_true,
    true_and] at hc
  omega

/-- C4 (amended): merging a set of partial files in any pairwise grouping
that keeps the files' relative order yields identical content — the 2-way
merge is associative; only swapping the two inputs of a merge can change the
content, by reordering the posting-list concatenation for shared terms. -/
theorem C4_merge_associative (A B C : List (String × List RawPosting)) :
    mergePartialIndexes (mergePartialIndexes A B) C
      = mergePartialIndexes A (mergePartialIndexes B C) :=
  mergePartialIndexes_assoc A B C

/-- C5: for every document, the posting builder emits one raw posting per
distinct term of the full text, carrying the given docID and the term's
frequency in the full text; the importance is the configured weight of the
last weighted-tag occurrence containing the term (reading the absent
`tokenImportance` key with its default 1), and 1 when no weighted tag
contains it. -/
theorem C5_parseDocument_spec (content : DocContent) (docID : Nat) :
    ((parseDocument content docID).map Prod.fst).Nodup
      ∧ (∀ t, t ∈ (parseDocument content docID).map Prod.fst
          ↔ t ∈ content.textTokens)
      ∧ ∀ e ∈ parseDocument content docID,
          e.2.docID = docID
            ∧ e.2.tokenFrequency = content.textTokens.count e.1
            ∧ e.2.tokenImportance.getD DEFAULT_IMPORTANCE
                = lastTagWeight content.tags e.1 :=
  ⟨parseDocument_keys_nodup content docID,
    fun t => parseDocument_mem_keys content docID t,
    parseDocument_entry content docID⟩

theorem corpusURLs_length (docs : List RawDoc) :
    (corpusURLs docs).length = (docs.filter validDoc).length := by
  induction docs with
  | nil => rfl
  | cons d ds ih =>
    rcases d with _ | ⟨url, html⟩
    · have h1 : corpusURLs (none :: ds) = corpusURLs ds := by
        simp [corpusURLs]
      have hval : validDoc none = false := rfl
      rw [h1, List.filter_cons_of_neg (by simp [hval])]
      exact ih
    · by_cases hv : url = "" ∨ html = ""
      · have h1 : corpusURLs (some (url, html) :: ds) = corpusURLs ds := by
          simp only [corpusURLs, List.filterMap_cons]
          rw [if_pos hv]
        have hval : validDoc (some (url, html)) = false := by
          rcases hv with hv | hv <;> simp [validDoc, hv]
        rw [h1, List.filter_cons_of_neg (by simp [hval])]
        exact ih
      · have h1 : corpusURLs (some (url, html) :: ds) = url :: corpusURLs ds := by
          simp only [corpusURLs, List.filterMap_cons]
          rw [if_neg hv]
        have hval : validDoc (some (url, html)) = true := by
          push_neg at hv
          simp [validDoc, hv.1, hv.2]
        rw [h1, List.filter_cons_of_pos hval]
        simp only [List.length_cons]
        omega

/-- C6: docIDs are assigned densely and monotonically in ingestion order —
the docID table is exactly the list of URLs of the successfully ingested
documents in corpus order (so the i-th successfully ingested document
occupies slot i), skipped documents consume no docID and no table slot, the
table length equals the ingested-document count `N` used for IDF, and every
posting docID in every spilled file is below `N`. -/
theorem C6_docID_density (extract : String → DocContent)
    (spill? : List (String × List RawPosting) → Bool) (docs : List RawDoc) :
    (createPartialIndexes extract spill? docs).docIDtoURL = corpusURLs docs
      ∧ (createPartialIndexes extract spill? docs).numberOfDocsIndexed
          = (docs.filter validDoc).length
      ∧ (createPartialIndexes extract spill? docs).docIDtoURL.length
          = (createPartialIndexes extract spill? docs).numberOfDocsIndexed
      ∧ ∀ f ∈ (createPartialIndexes extract spill? docs).files, ∀ e ∈ f,
          ∀ p ∈ e.2,
            p.docID
              < (createPartialIndexes extract spill? docs).numberOfDocsIndexed := by
  obtain ⟨c1, c2, c3⟩ := foldl_processDoc_counts extract spill? docs initialState
  have hurl : (createPartialIndexes extract spill? docs).docIDtoURL
      = corpusURLs docs := by
    rw [createPartialIndexes]
    dsimp only
    rw [c1]
    simp [initialState]
  have hnum : (createPartialIndexes extract spill? docs).numberOfDocsIndexed
      = (docs.filter validDoc).length := by
    rw [createPartialIndexes]
    dsimp only
    rw [c2]
    simp [initialState]
  have hcurr : (createPartialIndexes extract spill? docs).currDocID
      = (docs.filter validDoc).length := by
    rw [createPartialIndexes]
    dsimp only
    rw [c3]
    simp [initialState]
  refine ⟨hurl, hnum, ?_, ?_⟩
  · rw [hurl, hnum, corpusURLs_length]
  · intro f hf e he p hp
    have hb := (createPartialIndexes_inv extract spill? docs).2.2.1 f hf e he p hp
    rw [hcurr] at hb
    rw [hnum]
    exact hb

/-- C7: every spilled partial-index file lists its term entries in strictly
ascending term order (one entry per line), and the 2-way merge of two
term-sorted files is term-sorted, so the property is preserved through every
merge step up to the final index. -/
theorem C7_term_order :
    (∀ (extract : String → DocContent)
        (spill? : List (String × List RawPosting) → Bool) (docs : List RawDoc),
      ∀ f ∈ (createPartialIndexes extract spill? docs).files, TermsSorted f)
    ∧ (∀ A B : List (String × List RawPosting),
        TermsSorted A → TermsSorted B →
        TermsSorted (mergePartialIndexes A B)) := by
  constructor
  · intro extract spill? docs
    exact (createPartialIndexes_inv extract spill? docs).1
  · intro A B hA hB
    exact TermsSorted_mergePartialIndexes hA hB

/-- C7 witness: the merge-preservation part applied to two concrete
one-entry files. -/
theorem C7_witness :
    TermsSorted (mergePartialIndexes [(("t" : String), [RawPosting.mk 0 1 none])]
      [(("t" : String), [RawPosting.mk 1 1 none])]) :=
  C7_term_order.2 _ _ (List.pairwise_singleton _ _) (List.pairwise_singleton _ _)

/-- C8: for every `(term, offset)` entry the offset-map builder stores,
seeking the index file to that character offset and reading one line yields a
line whose parsed term equals the stored term; and every line's parsed term
has an entry in the offset map. Holds whenever no line contains a newline
character. -/
theorem C8_offset_map (parseTerm : List Char → String)
    (lines : List (List Char)) (hnl : ∀ l ∈ lines, ∀ c ∈ l, c ≠ '\n') :
    (∀ t o, dictGet? (createIndexofIndex parseTerm 0 lines []) t = some o →
        parseTerm (readLineAt (fileOfLines lines) o) = t)
      ∧ ∀ l ∈ lines,
          parseTerm l ∈ (createIndexofIndex parseTerm 0 lines []).map Prod.fst := by
  constructor
  · refine createIndexofIndex_valid parseTerm (fileOfLines lines) lines 0 [] hnl
      rfl ?_
    intro t o h
    simp [dictGet?] at h
  · exact createIndexofIndex_mem parseTerm lines 0 []

/-- C8 witness: the offset map over a concrete one-line file. -/
theorem C8_witness :
    (fun _ : List Char => "a") ['a']
      ∈ (createIndexofIndex (fun _ => "a") 0 [['a']] []).map Prod.fst :=
  (C8_offset_map (fun _ => "a") [['a']] (by decide)).2 ['a']
    (List.mem_cons_self _ _)

/-- C9: a term absent from the loaded offset map yields an empty posting list
from `readPostingList` with no error, and a query all of whose tokens are
unknown produces an empty URL list silently. -/
theorem C9_unknown_term (indexOfIndex : List (String × Nat)) (file : List Char)
    (parseLine : List Char → String → List WPosting) (token : String) :
    (dictGet? indexOfIndex token = none →
        readPostingList indexOfIndex file parseLine token = [])
      ∧ (∀ (wordTokenize : String → List String) (stem : String → String)
          (docIDtoURL : List String) (maxResults : Nat) (query : String),
          (∀ t ∈ tokenize wordTokenize stem query, dictGet? indexOfIndex t = none) →
          searchQuery wordTokenize stem (readPostingList indexOfIndex file parseLine)
            docIDtoURL maxResults query = []) := by
  constructor
  · intro h
    exact readPostingList_unknown indexOfIndex file parseLine token h
  · intro wordTokenize stem docIDtoURL maxResults query h
    refine searchQuery_empty_reads _ _ _ _ _ _ ?_
    intro t ht
    exact readPostingList_unknown indexOfIndex file parseLine t (h t ht)

/-- C9 witness: an unknown token on an empty offset map, and a query whose
sole token is unknown. -/
theorem C9_witness :
    readPostingList [] [] (fun _ _ => []) "zz" = []
      ∧ searchQuery (fun _ => ["zz"]) id (readPostingList [] [] (fun _ _ => []))
          [] 5 "q" = [] :=
  ⟨(C9_unknown_term [] [] (fun _ _ => []) "zz").1 rfl,
    (C9_unknown_term [] [] (fun _ _ => []) "zz").2 (fun _ => ["zz"]) id [] 5 "q"
      (fun _ _ => rfl)⟩

/-- C10: a query whose tokenization yields no admissible terms returns an
empty URL list without raising, and both the intersection and the union of an
empty collection of posting lists are the empty list. -/
theorem C10_no_admissible (wordTokenize : String → List String)
    (stem : String → String) (read : String → List WPosting)
    (docIDtoURL : List String) (maxResults : Nat) (query : String)
    (h : ∀ u ∈ wordTokenize (query.trim.toLower), isValidToken u = false) :
    searchQuery wordTokenize stem read docIDtoURL maxResults query = []
      ∧ getPostingsListsIntersection [] = []
      ∧ mergePostingLists [] = [] := by
  refine ⟨searchQuery_no_admissible wordTokenize stem read docIDtoURL maxResults
    query h, rfl, rfl⟩

/-- C10 witness: a punctuation-only query. -/
theorem C10_witness :
    searchQuery (fun _ => ["!"]) id (fun _ => []) [] 5 "!" = []
      ∧ getPostingsListsIntersection [] = []
      ∧ mergePostingLists [] = [] :=
  C10_no_admissible (fun _ => ["!"]) id (fun _ => []) [] 5 "!" (by decide)
